import Mathlib

/-! # indy-tests: build-test URL mapping, version rewrite and job dispatch

A shallow embedding of `pkg/buildtest/run.go` and
`pkg/buildtest/indy_repo_ops.go`, with the pieces of `pkg/common/util.go`,
`pkg/dataset/run.go` and `pkg/integrationtest/run.go` they meet.

Conventions of the embedding:

* a Go `string` is a list of characters (`Str`); every operation used here
  (`strings.HasPrefix`, `+`, `fmt.Sprintf` with `%s`, the regular expression
  `redhat-([0-9]+)`, `path.Join`) only inspects ASCII characters and copies
  the others unchanged;
* a `map[string][]string` whose values are the two-element slices
  `[]string{source, target}` is an association list with distinct keys whose
  values are pairs; the order of the list carries no meaning, iteration
  orders are quantified separately;
* a Go panic (slice bound out of range, index out of range, nil
  dereference) is `none`;
* the requests sent to the repository manager are kept in a list, in the
  order they are sent; the answers come from a server that is a parameter;
* what is printed is left out.
-/

namespace IndyTests

/-- A Go string. -/
abbrev Str := List Char

/-! ## Data model -/

/-- One artifact transfer event of a folo tracking record. -/
structure TrackedContentEntry where
  AccessChannel : Str
  Path : Str
  OriginUrl : Str
  LocalUrl : Str
  Effect : Str
  Md5 : Str
  Sha256 : Str
  Sha1 : Str
  Size : Int
  Timestamps : List Int
  StoreKey : Str
deriving DecidableEq, Repr

/-- The folo tracking record of one build. -/
structure TrackedContent where
  Uploads : List TrackedContentEntry
  Downloads : List TrackedContentEntry
  TrackingKey : Str
deriving DecidableEq, Repr

/-- A `map[string][]string` with two-element values. -/
abbrev GoMap := List (Str × (Str × Str))

/-- The assignment `m[k] = v`: overwrites the value of an existing key, adds
the key otherwise. -/
def GoMap.insert : GoMap → Str → Str × Str → GoMap
  | [], k, v => [(k, v)]
  | (k', v') :: rest, k, v =>
    if k' = k then (k, v) :: rest else (k', v') :: GoMap.insert rest k v

/-- The read `m[k]`, `none` when the key is absent. -/
def GoMap.lookup : GoMap → Str → Option (Str × Str)
  | [], _ => none
  | (k', v') :: rest, k => if k' = k then some v' else GoMap.lookup rest k

/-! ## String helpers of the Go standard library -/

/-- Go `strings.HasPrefix`. -/
def stringsHasPrefix (s pre : Str) : Bool := pre.isPrefixOf s

/-- Go `strings.HasSuffix`. -/
def stringsHasSuffix (s suf : Str) : Bool := suf.isSuffixOf s

/-! ## `run.go` -/

/-- The constant `BUILD_TEST_`. -/
def BUILD_TEST_ : Str := "build-test-".toList

/-- The function `normIndyURL` of `run.go`: adds the scheme `http://` when it
is missing, then a trailing slash when it is missing. -/
def normIndyURL (indyURL : Str) : Str :=
  let indy := indyURL
  let indy := if !stringsHasPrefix indy "http://".toList then "http://".toList ++ indy else indy
  let indy := if !stringsHasSuffix indy "/".toList then indy ++ "/".toList else indy
  indy

/-- The format `"%sapi/folo/track/%s/maven/group/%s%s"` of `run.go`, used for
both the download URL and the upload target URL. -/
def foloTrackUrl (targetIndy newBuildId p : Str) : Str :=
  targetIndy ++ "api/folo/track/".toList ++ newBuildId ++ "/maven/group/".toList ++ newBuildId ++ p

/-- The loop of `prepareDownloadEntriesByFolo`, with the map built so far. -/
def downloadLoop (targetIndy newBuildId : Str) : List TrackedContentEntry → GoMap → GoMap
  | [], result => result
  | down :: rest, result =>
    let downUrl := foloTrackUrl targetIndy newBuildId down.Path
    let downTuple : Str × Str := ([], downUrl)
    downloadLoop targetIndy newBuildId rest (result.insert down.Path downTuple)

/-- The function `prepareDownloadEntriesByFolo` of `run.go`. -/
def prepareDownloadEntriesByFolo (targetIndyURL newBuildId : Str) (foloRecord : TrackedContent) :
    GoMap :=
  let targetIndy := normIndyURL targetIndyURL
  downloadLoop targetIndy newBuildId foloRecord.Downloads []

/-! ### The regular expression `redhat-([0-9]+)` and `ReplaceAllString` -/

/-- One attempt of `versionRegexp` (`redhat-([0-9]+)`) at the start of `s`:
the digits captured by group 1 (the longest run, `+` is greedy) and the text
after the match; `none` when the expression does not match there. -/
def matchVersionAt (s : Str) : Option (Str × Str) :=
  if stringsHasPrefix s "redhat-".toList then
    let after := s.drop 7
    let digits := after.takeWhile Char.isDigit
    if digits = [] then none else some (digits, after.dropWhile Char.isDigit)
  else none

/-- The characters of a group name in a replacement template (Go `extract`):
letters, digits and the underscore. Letters and digits outside ASCII are not
recognised here. -/
def isNameChar (c : Char) : Bool := c.isAlphanum || c = '_'

/-- The number a group name denotes in Go `extract`: all digits, below `1e8`
before each further digit, no leading zero; `none` for Go's `-1`. -/
def parseGroupNum (name : Str) : Option Nat :=
  let num := name.foldl
    (fun acc c => match acc with
      | none => none
      | some n => if !c.isDigit || 100000000 ≤ n then none else some (n * 10 + (c.toNat - 48)))
    (some 0)
  if name.head? = some '0' ∧ 1 < name.length then none else num

/-- Go `extract`: the group reference at the start of `str` (the text after a
`$`): its name, its number and the rest of the template. -/
def extract (str : Str) : Option (Str × Option Nat × Str) :=
  if str = [] then none
  else
    let brace := str.head? = some '{'
    let str := if brace then str.drop 1 else str
    let name := str.takeWhile isNameChar
    let rest := str.dropWhile isNameChar
    if name = [] then none
    else if brace then
      match rest with
      | '}' :: rest' => some (name, parseGroupNum name, rest')
      | _ => none
    else some (name, parseGroupNum name, rest)

/-- The text a group reference stands for in a match of `versionRegexp`:
group 0 is the whole match, group 1 the digits; any other number and any
name (the expression has no named group) stand for nothing. -/
def submatchText (whole group1 : Str) : Option Nat → Str
  | some 0 => whole
  | some 1 => group1
  | _ => []

/-- Go `Regexp.expand` on a template: `$$` is a dollar, `$name` and `${name}`
are group references, a malformed `$` is kept. The fuel bounds the number of
characters read. -/
def expandAux (whole group1 : Str) : Nat → Str → Str
  | 0, template => template
  | _ + 1, [] => []
  | fuel + 1, c :: after =>
    if c ≠ '$' then c :: expandAux whole group1 fuel after
    else
      match after with
      | '$' :: after' => '$' :: expandAux whole group1 fuel after'
      | _ =>
        match extract after with
        | none => '$' :: expandAux whole group1 fuel after
        | some (_, num, rest) => submatchText whole group1 num ++ expandAux whole group1 fuel rest

/-- The replacement text of one match, from the template `repl`. -/
def expand (whole group1 repl : Str) : Str := expandAux whole group1 repl.length repl

/-- The loop of Go `Regexp.replaceAll` for `versionRegexp`: text before the
leftmost match is copied, the match is replaced, the search goes on after the
match. The fuel bounds the number of characters read. -/
def replaceAllAux (repl : Str) : Nat → Str → Str
  | 0, src => src
  | _ + 1, [] => []
  | fuel + 1, c :: cs =>
    match matchVersionAt (c :: cs) with
    | some (digits, rest) =>
      expand ("redhat-".toList ++ digits) digits repl ++ replaceAllAux repl fuel rest
    | none => c :: replaceAllAux repl fuel cs

/-- The call `versionRegexp.ReplaceAllString(src, repl)`. -/
def versionRegexpReplaceAllString (src repl : Str) : Str := replaceAllAux repl src.length src

/-- The function `alterUploadPath` of `run.go` (and `AlterUploadPath` of
`common/util.go`, which is the same code). -/
def alterUploadPath (rawPath buildNumber : Str) : Str :=
  versionRegexpReplaceAllString rawPath ("redhat-".toList ++ buildNumber)

/-! ### `path.Join` and `path.Clean` -/

/-- The segments of a path between its slashes (`a//b` has the segments `a`,
the empty one and `b`). -/
def splitSlash : Str → List Str
  | [] => [[]]
  | c :: cs =>
    if c = '/' then [] :: splitSlash cs
    else
      match splitSlash cs with
      | [] => [[c]]
      | seg :: segs => (c :: seg) :: segs

/-- Segments joined by single slashes. -/
def joinSlash : List Str → Str
  | [] => []
  | [seg] => seg
  | seg :: seg' :: segs => seg ++ '/' :: joinSlash (seg' :: segs)

/-- One path element in Go `path.Clean`: empty and `.` elements are dropped,
`..` removes the element before it when there is one that may be removed,
is kept (and pinned) in front of a relative path, and is dropped at the root.
The state is the list of elements written and how many leading ones are
pinned `..` elements. -/
def cleanStep (rooted : Bool) (st : List Str × Nat) (seg : Str) : List Str × Nat :=
  if seg = [] ∨ seg = ['.'] then st
  else if seg = ['.', '.'] then
    if st.2 < st.1.length then (st.1.dropLast, st.2)
    else if !rooted then (st.1 ++ [seg], st.1.length + 1)
    else st
  else (st.1 ++ [seg], st.2)

/-- Go `path.Clean`. -/
def pathClean (path : Str) : Str :=
  if path = [] then ['.']
  else
    let rooted := path.head? = some '/'
    let out := ((splitSlash path).foldl (cleanStep rooted) ([], 0)).1
    if rooted then '/' :: joinSlash out
    else if out = [] then ['.'] else joinSlash out

/-- Go `path.Join`: the non-empty elements joined by slashes and cleaned, the
empty string when there is none. -/
def pathJoin (elem : List Str) : Str :=
  let parts := elem.filter (fun e => e ≠ [])
  if parts = [] then [] else pathClean (joinSlash parts)

/-! ### Upload entries -/

/-- The Go slice expression `s[k:]`, a panic when `k` exceeds the length.
Go counts bytes and this counts characters: the two agree when the text is
ASCII (one byte per character), which `isAscii` states where the value of
the slice matters. -/
def sliceFrom (s : Str) (k : Nat) : Option Str :=
  if k ≤ s.length then some (s.drop k) else none

/-- The body of the loop of `prepareUploadEntriesByFolo` for one upload entry,
once the build number `newBuildId[len(BUILD_TEST_):]` is known: the source
URL and the target URL. `common.StoreKeyToPath` belongs to a part of
`pkg/common` that is not at hand and is the parameter `storeKeyToPath`. -/
def uploadUrls (storeKeyToPath : Str → Str) (originalIndy targetIndy newBuildId buildNumber : Str)
    (up : TrackedContentEntry) : Str × Str :=
  let storePath := storeKeyToPath up.StoreKey
  let uploadPath := pathJoin ["api/content".toList, storePath, up.Path]
  let orgiUpUrl := originalIndy ++ uploadPath
  let alteredUploadPath := alterUploadPath uploadPath buildNumber
  let targUpUrl := foloTrackUrl targetIndy newBuildId alteredUploadPath
  (orgiUpUrl, targUpUrl)

/-- The loop of `prepareUploadEntriesByFolo`, with the map built so far. -/
def uploadLoop (storeKeyToPath : Str → Str) (originalIndy targetIndy newBuildId : Str) :
    List TrackedContentEntry → GoMap → Option GoMap
  | [], result => some result
  | up :: rest, result =>
    match sliceFrom newBuildId BUILD_TEST_.length with
    | none => none
    | some buildNumber =>
      uploadLoop storeKeyToPath originalIndy targetIndy newBuildId rest
        (result.insert up.Path
          (uploadUrls storeKeyToPath originalIndy targetIndy newBuildId buildNumber up))

/-- The function `prepareUploadEntriesByFolo` of `run.go`. -/
def prepareUploadEntriesByFolo (storeKeyToPath : Str → Str)
    (originalIndyURL targetIndyURL newBuildId : Str) (foloRecord : TrackedContent) :
    Option GoMap :=
  let originalIndy := normIndyURL originalIndyURL
  let targetIndy := normIndyURL targetIndyURL
  uploadLoop storeKeyToPath originalIndy targetIndy newBuildId foloRecord.Uploads []

/-! ### `indy_repo_ops.go`: build metadata -/

/-- The constant `DEFAULT_SHARED_GROUP`. -/
def DEFAULT_SHARED_GROUP : Str := "builds-untested+shared-imports+public".toList

/-- The constant `DEFAULT_MVN_CENTRAL`. -/
def DEFAULT_MVN_CENTRAL : Str := "central".toList

/-- The constant `DEFAULT_NPM_CENTRAL`. -/
def DEFAULT_NPM_CENTRAL : Str := "npmjs".toList

/-- The constant `TYPE_MVN`. -/
def TYPE_MVN : Str := "maven".toList

/-- The constant `TYPE_NPM`. -/
def TYPE_NPM : Str := "npm".toList

/-- The struct `BuildMetadata`. -/
structure BuildMetadata where
  buildType : Str
  centralName : Str
  sharedGrpName : Str
deriving DecidableEq, Repr

/-- The function `decideMeta` of `indy_repo_ops.go`; `none` is the nil pointer. -/
def decideMeta (buildType : Str) : Option BuildMetadata :=
  if buildType = TYPE_MVN then
    some { buildType := buildType, centralName := DEFAULT_MVN_CENTRAL,
           sharedGrpName := DEFAULT_SHARED_GROUP }
  else if buildType = TYPE_NPM then
    some { buildType := buildType, centralName := DEFAULT_NPM_CENTRAL,
           sharedGrpName := DEFAULT_SHARED_GROUP }
  else none

/-- The two job mappings a run of `DoRun` builds, for the scratch name
`newBuildName` that `generateRandomBuildName` returned: the downloads (line
55) and the uploads (line 91). `buildType` reaches `decideMeta` only, whose
nil result is dereferenced before the mappings are built; the steps in
between (validation, repository creation, the transfers themselves) are
input and output and leave the arguments of the two calls untouched. -/
def DoRunMappings (storeKeyToPath : Str → Str) (originalIndy targetIndy buildType : Str)
    (foloTrackContent : TrackedContent) (newBuildName : Str) : Option (GoMap × GoMap) :=
  match decideMeta buildType with
  | none => none
  | some _ =>
    let downloads := prepareDownloadEntriesByFolo targetIndy newBuildName foloTrackContent
    match prepareUploadEntriesByFolo storeKeyToPath originalIndy targetIndy newBuildName
        foloTrackContent with
    | none => none
    | some uploads => some (downloads, uploads)

/-! ### `concurrentRun` and the sequential loop of `DoRun` -/

/-- The last loop of `concurrentRun`: `finalResult` takes each recorded result
in turn and the loop stops at the first `false`. -/
def finalLoop (finalResult : Bool) : List Bool → Bool
  | [] => finalResult
  | result :: rest => if !result then result else finalLoop result rest

/-- Where a worker goroutine of `concurrentRun` stands. -/
inductive Worker where
  /-- At the receive `a, ok := <-ch`. -/
  | receiving : Worker
  /-- Has received `a`, at `mu.Lock()`. -/
  | locking (a : Str × Str) : Worker
  /-- Holds `mu`, at `results = append(results, job(a[0], a[1]))`, which is
  followed by `mu.Unlock()`. -/
  | running (a : Str × Str) : Worker
  /-- Has called `wg.Done()` and returned. -/
  | done : Worker
deriving DecidableEq, Repr

/-- The state of one call of `concurrentRun`. The calling goroutine is at the
send loop while `pending` is not empty, at `close(ch)` while `closed` is
false, at `wg.Wait()` afterwards, and has returned once `returned` is set. -/
structure RunState where
  /-- The values of `artifacts` the send loop has not sent yet, in the order
  the `range` delivers them. -/
  pending : List (Str × Str)
  /-- The buffer of the channel `ch`. -/
  ch : List (Str × Str)
  /-- The channel was closed. -/
  closed : Bool
  /-- The mutex `mu` is held. -/
  mu : Bool
  /-- The worker goroutines. -/
  workers : List Worker
  /-- The slice `results`. -/
  results : List Bool
  /-- The calls of `job` made so far, in order (not a variable of the code). -/
  invoked : List (Str × Str)
  /-- The value `concurrentRun` returned. -/
  returned : Option Bool
deriving DecidableEq, Repr

/-- One step of one goroutine; the scheduler picks which. -/
inductive Action where
  /-- The caller sends the next value: `ch <- artifact`. -/
  | send : Action
  /-- The caller closes the channel: `close(ch)`. -/
  | close : Action
  /-- Worker `i` completes its receive: it gets a value, or it sees the
  channel closed and empty, calls `wg.Done()` and returns. -/
  | recv (i : Nat) : Action
  /-- Worker `i` acquires `mu`. -/
  | lock (i : Nat) : Action
  /-- Worker `i`, holding `mu`, calls `job`, appends its result and releases
  `mu`. -/
  | run (i : Nat) : Action
  /-- The caller leaves `wg.Wait()`, runs the last loop and returns. -/
  | ret : Action
deriving DecidableEq, Repr

/-- The state after one step of `concurrentRun` (`run.go`, lines 250 to 290),
`none` when the goroutine cannot take it (it is blocked or stands
elsewhere). `capacity` is the capacity of `ch`.

* `send` (line 276) needs room in the buffer;
* `close` (line 279) comes after the send loop;
* `recv` (lines 262 to 266) takes the oldest value of the buffer, or ends the
  worker when the channel is closed and empty, and blocks otherwise;
* `lock` (line 267) needs the mutex to be free;
* `run` (lines 268 and 269) happens while the worker holds the mutex, so no
  other access to `results` comes in between the call, the append and the
  unlock;
* `ret` (lines 280 to 289) needs every worker to have called `wg.Done()`. -/
def step (capacity : Nat) (job : Str → Str → Bool) (s : RunState) : Action → Option RunState
  | .send =>
    match s.pending with
    | [] => none
    | a :: rest =>
      if s.ch.length < capacity then some { s with pending := rest, ch := s.ch ++ [a] } else none
  | .close =>
    if s.pending = [] ∧ s.closed = false then some { s with closed := true } else none
  | .recv i =>
    match s.workers[i]? with
    | some .receiving =>
      match s.ch with
      | a :: rest => some { s with ch := rest, workers := s.workers.set i (.locking a) }
      | [] => if s.closed then some { s with workers := s.workers.set i .done } else none
    | _ => none
  | .lock i =>
    match s.workers[i]? with
    | some (.locking a) =>
      if s.mu then none else some { s with mu := true, workers := s.workers.set i (.running a) }
    | _ => none
  | .run i =>
    match s.workers[i]? with
    | some (.running a) =>
      some { s with
        mu := false
        results := s.results ++ [job a.1 a.2]
        invoked := s.invoked ++ [a]
        workers := s.workers.set i .receiving }
    | _ => none
  | .ret =>
    if s.closed = true ∧ s.returned = none ∧ s.workers.all (fun w => w = .done) then
      some { s with returned := some (finalLoop true s.results) }
    else none

/-- The state after a schedule, `none` when a step of the schedule cannot be
taken. -/
def exec (capacity : Nat) (job : Str → Str → Bool) : List Action → RunState → Option RunState
  | [], s => some s
  | a :: rest, s =>
    match step capacity job s a with
    | none => none
    | some s' => exec capacity job rest s'

/-- The state in which `concurrentRun` starts sending: `numWorkers` worker
goroutines at their receive, `order` is the order in which
`range artifacts` delivers the values. -/
def concurrentRunInit (numWorkers : Nat) (order : List (Str × Str)) : RunState :=
  { pending := order, ch := [], closed := false, mu := false,
    workers := List.replicate numWorkers .receiving, results := [], invoked := [],
    returned := none }

/-- The runs of `concurrentRun(numWorkers, artifacts, job)`: the state a
schedule leads to, with a channel of capacity `numWorkers*5`. -/
def concurrentRun (numWorkers : Nat) (order : List (Str × Str)) (job : Str → Str → Bool)
    (schedule : List Action) : Option RunState :=
  exec (numWorkers * 5) job schedule (concurrentRunInit numWorkers order)

/-- The sequential loop of `DoRun` (lines 67 to 72 and 99 to 104):
`broken = !job(urls[0], urls[1])`, and a `break` once `broken`. The result is
the list of calls made, in order, and the final value of `broken`. -/
def sequentialLoop (job : Str → Str → Bool) :
    List (Str × Str) → List (Str × Str) → Bool → List (Str × Str) × Bool
  | [], invoked, broken => (invoked, broken)
  | urls :: rest, invoked, _ =>
    let broken := !job urls.1 urls.2
    if broken then (invoked ++ [urls], broken)
    else sequentialLoop job rest (invoked ++ [urls]) broken

/-- One phase of `DoRun` (downloads, lines 60 to 73, or uploads, lines 93 to
105): the calls of the job function and the value of `broken` after it.
`order` is the order in which `range` delivers the values of the mapping,
`schedule` the interleaving of a concurrent run; `none` when the schedule is
not a complete run. -/
def DoRunPhase (processNum : Int) (job : Str → Str → Bool) (order : List (Str × Str))
    (schedule : List Action) : Option (List (Str × Str) × Bool) :=
  if 0 < order.length then
    if 1 < processNum then
      match concurrentRun processNum.toNat order job schedule with
      | some s =>
        match s.returned with
        | some r => some (s.invoked, !r)
        | none => none
      | none => none
    else some (sequentialLoop job order [] false)
  else some ([], false)

/-- The jobs a worker holds: the value it received and has not run yet. -/
def Worker.held : Worker → List (Str × Str)
  | .locking a => [a]
  | .running a => [a]
  | _ => []

/-- The values the workers hold. -/
def heldJobs : List Worker → List (Str × Str)
  | [] => []
  | w :: ws => w.held ++ heldJobs ws

/-- The number of steps a worker can still take without a new value. -/
def Worker.weight : Worker → Nat
  | .receiving => 1
  | .locking _ => 3
  | .running _ => 2
  | .done => 0

/-- The sum of the weights of the workers. -/
def weightSum : List Worker → Nat
  | [] => 0
  | w :: ws => w.weight + weightSum ws

/-- A bound on the number of steps a run can still take. -/
def stepsLeft (s : RunState) : Nat :=
  5 * s.pending.length + 4 * s.ch.length + weightSum s.workers
    + (if s.closed then 0 else 1) + (if s.returned.isSome then 0 else 1)

/-- What holds in every state of a run of `concurrentRun` on the values `jobs`
with `n` workers. -/
structure RunInv (job : Str → Str → Bool) (jobs : List (Str × Str)) (n : Nat)
    (s : RunState) : Prop where
  /-- Every value is in exactly one place: already run, held by a worker, in
  the channel, or not sent yet. -/
  perm : (s.invoked ++ (heldJobs s.workers ++ (s.ch ++ s.pending))).Perm jobs
  /-- The recorded results are the results of the calls made, in order. -/
  results : s.results = s.invoked.map (fun a => job a.1 a.2)
  /-- The channel is closed only after the send loop. -/
  closed_pending : s.closed = true → s.pending = []
  /-- A worker returns only when the channel is closed and empty. -/
  done_closed : Worker.done ∈ s.workers → s.closed = true ∧ s.ch = []
  /-- The mutex is held by a worker that is about to run its job. -/
  mu_running : s.mu = true → ∃ a, Worker.running a ∈ s.workers
  /-- The caller returns after all workers, with the value of the last loop. -/
  returned : ∀ r, s.returned = some r →
    r = finalLoop true s.results ∧ ∀ w ∈ s.workers, w = Worker.done
  /-- The number of workers. -/
  len : s.workers.length = n

/-- A job function for the scenarios: the transfer of `/bad` fails. -/
def scenarioJob (_originalArtiURL targetArtiURL : Str) : Bool :=
  !(targetArtiURL = "http://x/bad".toList)

/-- A job mapping for the scenarios: three transfers, the second fails. -/
def scenarioJobs : GoMap :=
  [("/a".toList, ("".toList, "http://x/a".toList)),
   ("/bad".toList, ("".toList, "http://x/bad".toList)),
   ("/c".toList, ("".toList, "http://x/c".toList))]

/-- A complete schedule of two workers on three values. -/
def scenarioSchedule : List Action :=
  [.send, .send, .recv 1, .recv 0, .lock 0, .send, .close, .run 0, .lock 1, .recv 0,
   .run 1, .recv 1, .lock 0, .run 0, .recv 0, .ret]

/-- The state the schedule of the scenario ends in: both workers have
returned, the failing transfer was recorded first. -/
def scenarioFinal : RunState :=
  { pending := [], ch := [], closed := true, mu := false,
    workers := [Worker.done, Worker.done], results := [false, true, true],
    invoked := [("".toList, "http://x/bad".toList), ("".toList, "http://x/a".toList),
      ("".toList, "http://x/c".toList)],
    returned := some false }

/-! ### Vocabulary of the claims -/

/-- The text contains a version token: `redhat-` followed by at least one
decimal digit. -/
def HasVersionToken (s : Str) : Prop :=
  ∃ (u : Str) (d : Char) (v : Str), d.isDigit = true ∧ s = u ++ "redhat-".toList ++ d :: v

/-- A version token starts at the first character. -/
def tokenAtHead (s : Str) : Bool :=
  match s with
  | 'r' :: 'e' :: 'd' :: 'h' :: 'a' :: 't' :: '-' :: d :: _ => d.isDigit
  | _ => false

/-- Executable form of `HasVersionToken`. -/
def hasVersionTokenB : Str → Bool
  | [] => false
  | c :: cs => tokenAtHead (c :: cs) || hasVersionTokenB cs

/-- The text is made of decimal digits only. -/
def digitsOnly (n : Str) : Prop := ∀ c ∈ n, c.isDigit = true

instance digitsOnly.decidable (n : Str) : Decidable (digitsOnly n) :=
  inferInstanceAs (Decidable (∀ c ∈ n, c.isDigit = true))

/-- The text does not start with a decimal digit. -/
def noLeadingDigit (s : Str) : Prop := ∀ c ∈ s.head?, c.isDigit = false

instance noLeadingDigit.decidable (s : Str) : Decidable (noLeadingDigit s) :=
  inferInstanceAs (Decidable (∀ c ∈ s.head?, c.isDigit = false))

/-- A path element that `path.Clean` keeps as it is. -/
def goodSegment (seg : Str) : Bool := seg ≠ [] && seg ≠ ['.'] && seg ≠ ['.', '.']

/-- A clean relative path: elements that are neither empty nor `.` nor `..`,
separated by single slashes, no slash at either end. -/
def isCleanRel (s : Str) : Bool := (splitSlash s).all goodSegment

/-- A clean path below the root: a slash followed by a clean relative path. -/
def isCleanAbs (p : Str) : Bool :=
  match p with
  | '/' :: rest => isCleanRel rest
  | _ => false

/-! ### Scenarios of the specification -/

/-- Modelled from the spec: `common.StoreKeyToPath` is not at hand. A store
key decomposes into package type, store type and store name
(`maven:hosted:orig`), and its path form is the `{storePath}` of
`api/content/{storePath}/{path}`: the three parts separated by slashes. -/
def StoreKeyToPath (storeKey : Str) : Str :=
  storeKey.map (fun c => if c = ':' then '/' else c)

/-- The download entry of the end-to-end scenario of the specification. -/
def scenarioDownload : TrackedContentEntry :=
  { AccessChannel := "GENERIC_PROXY".toList, Path := "/foo/1.0/foo-1.0.jar".toList,
    OriginUrl := [], LocalUrl := [], Effect := "DOWNLOAD".toList, Md5 := [], Sha256 := [],
    Sha1 := [], Size := 0, Timestamps := [], StoreKey := "maven:remote:central".toList }

/-- The upload entry of the end-to-end scenario of the specification. -/
def scenarioUpload : TrackedContentEntry :=
  { AccessChannel := "NATIVE".toList, Path := "/foo/1.0-redhat-3/foo.pom".toList,
    OriginUrl := [], LocalUrl := [], Effect := "UPLOAD".toList, Md5 := [], Sha256 := [],
    Sha1 := [], Size := 0, Timestamps := [], StoreKey := "maven:hosted:orig".toList }

/-- The tracking record of the scenarios: one download, one upload. -/
def scenarioRecord : TrackedContent :=
  { Uploads := [scenarioUpload], Downloads := [scenarioDownload],
    TrackingKey := "build-1234".toList }

/-! ### `indy_repo_ops.go`: repository lifecycle -/

/-- The methods of the requests the code sends. -/
inductive HttpMethod where
  | GET : HttpMethod
  | POST : HttpMethod
  | PUT : HttpMethod
  | DELETE : HttpMethod
deriving DecidableEq, Repr

/-- One request sent to the repository manager. -/
structure HttpRequest where
  method : HttpMethod
  url : Str
  body : Str
deriving DecidableEq, Repr

/-- The repository manager as the code sees it: whether a request succeeds,
given the requests sent before it. -/
abbrev Server := List HttpRequest → HttpRequest → Bool

/-- Modelled from the spec: `common.HTTPRequest` is not at hand. It performs
a single request against a URL and reports whether it succeeded (a transport
failure or a status outside 2xx is a failure). Here the request is added to
the list of requests sent so far and the server gives the outcome. -/
def HTTPRequest (server : Server) (sent : List HttpRequest) (url : Str) (method : HttpMethod)
    (data : Str) : Bool × List HttpRequest :=
  let request : HttpRequest := { method := method, url := url, body := data }
  (server sent request, sent ++ [request])

/-- The function `putRequest` of `indy_repo_ops.go`. -/
def putRequest (server : Server) (sent : List HttpRequest) (url data : Str) :
    Bool × List HttpRequest :=
  HTTPRequest server sent url HttpMethod.PUT data

/-- The function `delRequest` of `indy_repo_ops.go`. -/
def delRequest (server : Server) (sent : List HttpRequest) (url : Str) :
    Bool × List HttpRequest :=
  HTTPRequest server sent url HttpMethod.DELETE []

/-- The struct `IndyHostedVars`, the input of the hosted-repository
template. -/
structure IndyHostedVars where
  Name : Str
  /-- The field `Type`. -/
  Type_ : Str
deriving DecidableEq, Repr

/-- The struct `IndyGroupVars`, the input of the group-repository template. -/
structure IndyGroupVars where
  Name : Str
  /-- The field `Type`. -/
  Type_ : Str
  Constituents : List Str
deriving DecidableEq, Repr

/-- The function `prepareIndyHosted` of `indy_repo_ops.go`: one PUT of the
hosted repository. The template `IndyHostedTemplate` is not at hand and is a
parameter. -/
def prepareIndyHosted (server : Server) (IndyHostedTemplate : IndyHostedVars → Str)
    (sent : List HttpRequest) (indyURL buildType buildName : Str) : Bool × List HttpRequest :=
  let hostedVars : IndyHostedVars := { Name := buildName, Type_ := buildType }
  let URL := indyURL ++ "/api/admin/stores/".toList ++ buildType ++ "/hosted/".toList ++ buildName
  let hosted := IndyHostedTemplate hostedVars
  putRequest server sent URL hosted

/-- The function `prepareIndyGroup` of `indy_repo_ops.go`: one PUT of the
group repository. The template `IndyGroupTemplate` is not at hand and is a
parameter. -/
def prepareIndyGroup (server : Server) (IndyGroupTemplate : IndyGroupVars → Str)
    (sent : List HttpRequest) (indyURL buildName : Str) (buildMeta : BuildMetadata) :
    Bool × List HttpRequest :=
  let buildType := buildMeta.buildType
  let sharedGrpName := buildMeta.sharedGrpName
  let groupVars : IndyGroupVars :=
    { Name := buildName, Type_ := buildMeta.buildType,
      Constituents := [buildType ++ ":hosted:".toList ++ buildName,
        buildType ++ ":group:".toList ++ sharedGrpName] }
  let group := IndyGroupTemplate groupVars
  let URL := indyURL ++ "/api/admin/stores/".toList ++ buildType ++ "/group/".toList ++ buildName
  putRequest server sent URL group

/-- The function `prepareIndyRepos` of `indy_repo_ops.go`: the value returned
and the requests sent so far. -/
def prepareIndyRepos (server : Server) (IndyHostedTemplate : IndyHostedVars → Str)
    (IndyGroupTemplate : IndyGroupVars → Str) (sent : List HttpRequest)
    (indyURL buildName : Str) (buildMeta : BuildMetadata) (dryRun : Bool) :
    Bool × List HttpRequest :=
  if dryRun then (true, sent)
  else
    let hosted := prepareIndyHosted server IndyHostedTemplate sent indyURL buildMeta.buildType
      buildName
    if !hosted.1 then (false, hosted.2)
    else prepareIndyGroup server IndyGroupTemplate hosted.2 indyURL buildName buildMeta

/-- The function `delAllowed` of `indy_repo_ops.go`. -/
def delAllowed (buildName : Str) : Bool :=
  if stringsHasPrefix buildName BUILD_TEST_ then true else false

/-- The function `deleteIndyHosted` of `indy_repo_ops.go`: the requests sent
so far. -/
def deleteIndyHosted (server : Server) (sent : List HttpRequest)
    (indyURL buildType buildName : Str) : List HttpRequest :=
  let URL := indyURL ++ "/api/admin/stores/".toList ++ buildType ++ "/hosted/".toList ++ buildName
    ++ "?deleteContent=true".toList
  (delRequest server sent URL).2

/-- The function `deleteIndyGroup` of `indy_repo_ops.go`: the requests sent so
far. -/
def deleteIndyGroup (server : Server) (sent : List HttpRequest)
    (indyURL buildType buildName : Str) : List HttpRequest :=
  let URL := indyURL ++ "/api/admin/stores/".toList ++ buildType ++ "/group/".toList ++ buildName
  (delRequest server sent URL).2

/-- The function `DeleteIndyTestRepos` of `indy_repo_ops.go`: the requests sent
so far. -/
def DeleteIndyTestRepos (server : Server) (sent : List HttpRequest)
    (indyURL packageType buildName : Str) : List HttpRequest :=
  if !delAllowed buildName then sent
  else
    let sent := deleteIndyGroup server sent indyURL packageType buildName
    deleteIndyHosted server sent indyURL packageType buildName

/-! ### Scratch build names -/

/-- The function `generateRandomBuildName` of `run.go` (and
`GenerateRandomBuildName` of `common/util.go`, which is the same code).
`Intn n` is the value the call `rand.Intn(n)` returns after the seeding; the
format `%v` writes the integer in decimal. -/
def generateRandomBuildName (Intn : Nat → Nat) : Str :=
  let min := 900000
  let max := 999999
  BUILD_TEST_ ++ Nat.toDigits 10 (Intn (max - min) + min)

/-! ### `dataset/run.go` and `integrationtest/run.go`: the build type -/

/-- The struct `Info` of `dataset/run.go`, the content of `info.json`. -/
structure Info where
  PncBaseUrl : Str
  BuildId : Str
  BuildType : Str
  TemporaryBuild : Bool
deriving DecidableEq, Repr

/-- The constant `BUILD_MVN`. -/
def BUILD_MVN : Str := "MVN".toList

/-- The constant `BUILD_NPM`. -/
def BUILD_NPM : Str := "NPM".toList

/-- Lower case of an ASCII letter, any other character unchanged. -/
def asciiLower (c : Char) : Char :=
  if 'A' ≤ c ∧ c ≤ 'Z' then Char.ofNat (c.toNat + 32) else c

/-- Go `strings.EqualFold` against a text of ASCII letters none of which
is `k` or `s` (the only ASCII letters with a case variant outside ASCII):
equality up to the case of ASCII letters. -/
def stringsEqualFoldAscii (s t : Str) : Bool := s.map asciiLower = t.map asciiLower

/-- The function `getPackageType` of `integrationtest/run.go`. -/
def getPackageType (info : Info) : Str :=
  if stringsEqualFoldAscii info.BuildType "NPM".toList then "npm".toList else "maven".toList

/-- The build type `integrationtest.Run` hands to `buildtest.DoRun` (line 85):
the field `info.BuildType` as it is. The package type of `getPackageType` is
used for the metadata retrieval (line 74) and the clean-up (line 101)
only. -/
def RunBuildTypeArgument (info : Info) : Str := info.BuildType

/-- The dereference `*buildMeta` of `DoRun` (lines 48 and 49) in a run of
`integrationtest.Run`: the metadata, `none` for the panic on the nil
pointer. -/
def RunBuildMeta (info : Info) : Option BuildMetadata :=
  decideMeta (RunBuildTypeArgument info)

/-! ### `dataset/run.go`: metadata paths scraped from the alignment log -/

/-- The double quote character. -/
def doubleQuote : Char := Char.ofNat 34

/-- The position of the first `c` in `s`. -/
def indexOfChar (c : Char) : Str → Option Nat
  | [] => none
  | x :: xs => if x = c then some 0 else (indexOfChar c xs).map (fun i => i + 1)

/-- Go `strings.Index(s, substr)` for a one-character `substr`: `-1` when it
does not occur. -/
def stringsIndex (s : Str) (c : Char) : Int :=
  match indexOfChar c s with
  | some i => (i : Int)
  | none => -1

/-- The Go slice expression `s[lo:hi]`, a panic unless
`0 <= lo <= hi <= len(s)`. -/
def sliceBetween (s : Str) (lo hi : Int) : Option Str :=
  if 0 ≤ lo ∧ lo ≤ hi ∧ hi ≤ (s.length : Int) then some ((s.take hi.toNat).drop lo.toNat)
  else none

/-- Go `strings.Split(s, sep)` for a one-character `sep`: the texts between
the separators, at least one. -/
def stringsSplit (sep : Char) : Str → List Str
  | [] => [[]]
  | c :: cs =>
    if c = sep then [] :: stringsSplit sep cs
    else
      match stringsSplit sep cs with
      | [] => [[c]]
      | seg :: segs => (c :: seg) :: segs

/-- Go `strings.Trim`: the characters of the cut set are removed at both
ends. -/
def stringsTrim (s : Str) (cutset : Char → Bool) : Str :=
  ((s.dropWhile cutset).reverse.dropWhile cutset).reverse

/-- Go `unicode.IsSpace`. -/
def unicodeIsSpace (c : Char) : Bool :=
  let n := c.toNat
  n = 9 || n = 10 || n = 11 || n = 12 || n = 13 || n = 32 || n = 133 || n = 160 || n = 5760
    || (8192 ≤ n && n ≤ 8202) || n = 8232 || n = 8233 || n = 8239 || n = 8287 || n = 12288

/-- Go `strings.TrimSpace`. -/
def stringsTrimSpace (s : Str) : Str := stringsTrim s unicodeIsSpace

/-- Go `strings.ReplaceAll(s, old, new)` for one-character `old` and `new`. -/
def stringsReplaceAll (s : Str) (old new : Char) : Str :=
  s.map (fun c => if c = old then new else c)

/-- The first occurrence of `sep` in a text: the text before it and the text
after it. -/
def cutAt (sep : Str) : Str → Option (Str × Str)
  | [] => if sep = [] then some ([], []) else none
  | c :: cs =>
    if stringsHasPrefix (c :: cs) sep then some ([], (c :: cs).drop sep.length)
    else
      match cutAt sep cs with
      | some (before, after) => some (c :: before, after)
      | none => none

/-- Go `FindAllString(s, -1)` for an expression `(?s)LIT.*?TERM` with literal
texts `LIT` and `TERM`: the leftmost `LIT`, the shortest text after it that
`TERM` follows, and `TERM`; the search goes on after the match. The fuel
bounds the number of characters read. -/
def findAllLazy (lit term : Str) : Nat → Str → List Str
  | 0, _ => []
  | _ + 1, [] => []
  | fuel + 1, c :: cs =>
    if stringsHasPrefix (c :: cs) lit then
      match cutAt term ((c :: cs).drop lit.length) with
      | some (body, rest) => (lit ++ body ++ term) :: findAllLazy lit term fuel rest
      | none => findAllLazy lit term fuel cs
    else findAllLazy lit term fuel cs

/-- The matches of `(?s)REST Client returned.*?\}` in the alignment log. -/
def mavenBlocks (alignLog : Str) : List Str :=
  findAllLazy "REST Client returned".toList ['}'] alignLog.length alignLog

/-- The slice `match[i+1 : len(match)-1]` of `getMavenMetadataPaths`, with
`i := strings.Index(match, "{")`. -/
def mavenBlockGavs (matched : Str) : Option Str :=
  let i := stringsIndex matched '{'
  sliceBetween matched (i + 1) ((matched.length : Int) - 1)

/-- The body of the inner loop of `getMavenMetadataPaths` for one item: the
metadata path, `none` when `s[1]` is out of range. -/
def mavenItemPath (gav : Str) : Option Str :=
  match stringsSplit ':' gav with
  | s0 :: s1 :: _ =>
    let groupId := stringsTrim s0 (fun c => c = ' ')
    let artifactId := s1
    let groupIdPath := stringsReplaceAll groupId '.' '/'
    some (groupIdPath ++ "/".toList ++ artifactId ++ "/maven-metadata.xml".toList)
  | _ => none

/-- The inner loop of `getMavenMetadataPaths`, over `gavArray`, with the
paths collected so far. -/
def mavenItemsLoop : List Str → List Str → Option (List Str)
  | [], paths => some paths
  | gav :: rest, paths =>
    match mavenItemPath gav with
    | none => none
    | some p => mavenItemsLoop rest (paths ++ [p])

/-- The outer loop of `getMavenMetadataPaths`, over the matches, with the
paths collected so far. -/
def mavenBlocksLoop : List Str → List Str → Option (List Str)
  | [], paths => some paths
  | matched :: rest, paths =>
    match mavenBlockGavs matched with
    | none => none
    | some gavs =>
      if gavs = [] then mavenBlocksLoop rest paths
      else
        let gavArray := stringsSplit ',' gavs
        match mavenItemsLoop gavArray paths with
        | none => none
        | some paths' => mavenBlocksLoop rest paths'

/-- The function `getMavenMetadataPaths` of `dataset/run.go`; `none` is a
panic (slice bound or index out of range). -/
def getMavenMetadataPaths (alignLog : Str) : Option (List Str) :=
  mavenBlocksLoop (mavenBlocks alignLog) []

/-- The inner loop of `getNPMMetadataPaths`, over `arr`, with the paths
collected so far: the value of the first item whose key is `name`. -/
def npmItemsLoop : List Str → List Str → Option (List Str)
  | [], paths => some paths
  | jtem :: rest, paths =>
    match stringsSplit ':' jtem with
    | s0 :: s1 :: _ =>
      let k := stringsTrim (stringsTrimSpace s0) (fun c => c = doubleQuote)
      let v := stringsTrim (stringsTrimSpace s1) (fun c => c = doubleQuote)
      if k = "name".toList then some (paths ++ [v]) else npmItemsLoop rest paths
    | _ => none

/-- The outer loop of `getNPMMetadataPaths`, over the matches. -/
def npmBlocksLoop : List Str → List Str → Option (List Str)
  | [], paths => some paths
  | matched :: rest, paths =>
    let i := stringsIndex matched '{'
    match sliceBetween matched (i + 1) ((matched.length : Int) - 2) with
    | none => none
    | some jtems =>
      if jtems = [] then npmBlocksLoop rest paths
      else
        let arr := stringsSplit ',' jtems
        match npmItemsLoop arr paths with
        | none => none
        | some paths' => npmBlocksLoop rest paths'

/-- The function `getNPMMetadataPaths` of `dataset/run.go`. -/
def getNPMMetadataPaths (alignLog : Str) : Option (List Str) :=
  npmBlocksLoop
    (findAllLazy "Got project manipulator result data".toList ['}', doubleQuote]
      alignLog.length alignLog) []

/-- The function `getMetadataPaths` of `dataset/run.go`; `none` is a panic,
among them the explicit one on an invalid build type. -/
def getMetadataPaths (alignLog buildType : Str) : Option (List Str) :=
  if buildType = BUILD_MVN then getMavenMetadataPaths alignLog
  else if buildType = BUILD_NPM then getNPMMetadataPaths alignLog
  else none

/-- The comma-separated items of a matched block, none for an empty block. -/
def mavenBlockItems (matched : Str) : List Str :=
  match mavenBlockGavs matched with
  | some gavs => if gavs = [] then [] else stringsSplit ',' gavs
  | none => []

/-- The items of all matched blocks of an alignment log, in order. -/
def mavenItems (alignLog : Str) : List Str :=
  ((mavenBlocks alignLog).map mavenBlockItems).flatten

/-- The path written for an item that has a group and an artifact part. -/
def mavenPathOfParts (gav : Str) : Str :=
  let s := stringsSplit ':' gav
  stringsReplaceAll (stringsTrim (s.getD 0 []) (fun c => c = ' ')) '.' '/' ++ "/".toList
    ++ s.getD 1 [] ++ "/maven-metadata.xml".toList

/-! ### Vocabulary of the later claims -/

/-- The text is ASCII: every character is one byte, so that positions and
lengths in characters are positions and lengths in bytes, and letters and
digits are the ASCII ones. -/
def isAscii (s : Str) : Prop := ∀ c ∈ s, c.toNat < 128

instance isAscii.decidable (s : Str) : Decidable (isAscii s) :=
  inferInstanceAs (Decidable (∀ c ∈ s, c.toNat < 128))

/-- The request `prepareIndyHosted` sends. -/
def hostedPut (IndyHostedTemplate : IndyHostedVars → Str) (indyURL buildName : Str)
    (buildMeta : BuildMetadata) : HttpRequest :=
  { method := HttpMethod.PUT,
    url := indyURL ++ "/api/admin/stores/".toList ++ buildMeta.buildType ++ "/hosted/".toList
      ++ buildName,
    body := IndyHostedTemplate { Name := buildName, Type_ := buildMeta.buildType } }

/-- The request `prepareIndyGroup` sends. -/
def groupPut (IndyGroupTemplate : IndyGroupVars → Str) (indyURL buildName : Str)
    (buildMeta : BuildMetadata) : HttpRequest :=
  { method := HttpMethod.PUT,
    url := indyURL ++ "/api/admin/stores/".toList ++ buildMeta.buildType ++ "/group/".toList
      ++ buildName,
    body := IndyGroupTemplate
      { Name := buildName, Type_ := buildMeta.buildType,
        Constituents := [buildMeta.buildType ++ ":hosted:".toList ++ buildName,
          buildMeta.buildType ++ ":group:".toList ++ buildMeta.sharedGrpName] } }

/-- The request `deleteIndyGroup` sends. -/
def groupDelete (indyURL packageType buildName : Str) : HttpRequest :=
  { method := HttpMethod.DELETE,
    url := indyURL ++ "/api/admin/stores/".toList ++ packageType ++ "/group/".toList ++ buildName,
    body := [] }

/-- The request `deleteIndyHosted` sends. -/
def hostedDelete (indyURL packageType buildName : Str) : HttpRequest :=
  { method := HttpMethod.DELETE,
    url := indyURL ++ "/api/admin/stores/".toList ++ packageType ++ "/hosted/".toList ++ buildName
      ++ "?deleteContent=true".toList,
    body := [] }

/-- A server for the scenarios: it refuses every PUT of a hosted repository
and accepts everything else. -/
def scenarioServer : Server :=
  fun _ request =>
    !(request.method = HttpMethod.PUT ∧
      stringsHasPrefix request.url "http://x/api/admin/stores/maven/hosted/".toList)

/-- A hosted-repository template for the scenarios. -/
def scenarioHostedTemplate (vars : IndyHostedVars) : Str :=
  "hosted ".toList ++ vars.Name

/-- A group-repository template for the scenarios. -/
def scenarioGroupTemplate (vars : IndyGroupVars) : Str :=
  "group ".toList ++ vars.Name

/-- The metadata of a Maven run. -/
def scenarioMeta : BuildMetadata :=
  { buildType := TYPE_MVN, centralName := DEFAULT_MVN_CENTRAL,
    sharedGrpName := DEFAULT_SHARED_GROUP }

/-- A second upload of the path of the scenario, from another store. -/
def scenarioUploadOther : TrackedContentEntry :=
  { scenarioUpload with StoreKey := "maven:hosted:other".toList }

/-- A tracking record with two uploads of the same path. -/
def scenarioTwoUploads : TrackedContent :=
  { Uploads := [scenarioUpload, scenarioUploadOther], Downloads := [],
    TrackingKey := "build-1234".toList }

/-- The upload mapping of `scenarioTwoUploads` for the original server
`http://orig`, the target `http://x` and the name `build-test-912345`. -/
def scenarioTwoUploadsMap : GoMap :=
  [("/foo/1.0-redhat-3/foo.pom".toList,
    ("http://orig/api/content/maven/hosted/other/foo/1.0-redhat-3/foo.pom".toList,
     "http://x/api/folo/track/build-test-912345/maven/group/build-test-912345api/content/maven/hosted/other/foo/1.0-redhat-912345/foo.pom".toList))]

/-- An alignment log with two blocks: two coordinates, then none. -/
def scenarioAlignLog : Str :=
  "x REST Client returned \x7borg.foo:bar:1.0:jar,org.a.b:c:2\x7d y REST Client returned \x7b\x7d z".toList

/-! ## Lemmas on maps -/

theorem GoMap.lookup_insert_self (m : GoMap) (k : Str) (v : Str × Str) :
    (m.insert k v).lookup k = some v := by
  induction m with
  | nil => simp [GoMap.insert, GoMap.lookup]
  | cons e rest ih =>
    obtain ⟨k', v'⟩ := e
    by_cases h : k' = k
    · simp [GoMap.insert, GoMap.lookup, h]
    · simp [GoMap.insert, GoMap.lookup, h, ih]

theorem GoMap.lookup_insert_other (m : GoMap) (k k₂ : Str) (v : Str × Str) (hk : k ≠ k₂) :
    (m.insert k v).lookup k₂ = m.lookup k₂ := by
  induction m with
  | nil => simp [GoMap.insert, GoMap.lookup, hk]
  | cons e rest ih =>
    obtain ⟨k', v'⟩ := e
    by_cases h : k' = k
    · subst h
      simp [GoMap.insert, GoMap.lookup, hk]
    · by_cases h₂ : k' = k₂
      · subst h₂
        simp [GoMap.insert, GoMap.lookup, h]
      · simp [GoMap.insert, GoMap.lookup, h, h₂, ih]

/-- What the download loop leaves under a key: the pair of the key itself when
an entry carries it, the earlier value otherwise. -/
theorem downloadLoop_lookup (targetIndy newBuildId : Str) (ds : List TrackedContentEntry)
    (result : GoMap) (p : Str) :
    (downloadLoop targetIndy newBuildId ds result).lookup p =
      if p ∈ ds.map TrackedContentEntry.Path then
        some ([], foloTrackUrl targetIndy newBuildId p)
      else result.lookup p := by
  induction ds generalizing result with
  | nil => simp [downloadLoop]
  | cons d rest ih =>
    rw [downloadLoop, ih]
    by_cases hin : p ∈ rest.map TrackedContentEntry.Path
    · simp [hin]
    · by_cases hd : d.Path = p
      · subst hd
        simp [hin, GoMap.lookup_insert_self]
      · have hd' : ¬ p = d.Path := fun h => hd h.symm
        simp [hin, hd', GoMap.lookup_insert_other _ _ _ _ hd]

/-! ## Lemmas on the version rewrite -/

theorem matchVersionAt_eq_some (s ds rest : Str) (h : matchVersionAt s = some (ds, rest)) :
    s = "redhat-".toList ++ ds ++ rest ∧ ds ≠ [] ∧ digitsOnly ds ∧ noLeadingDigit rest := by
  unfold matchVersionAt at h
  by_cases hp : stringsHasPrefix s "redhat-".toList = true
  · rw [if_pos hp] at h
    simp only [stringsHasPrefix, List.isPrefixOf_iff_prefix] at hp
    obtain ⟨t, rfl⟩ := hp
    have hdrop : ("redhat-".toList ++ t).drop 7 = t := by
      have : ("redhat-".toList).length = 7 := by decide
      rw [← this, List.drop_left]
    simp only [hdrop] at h
    by_cases hd : t.takeWhile Char.isDigit = []
    · simp [hd] at h
    · simp only [hd, if_false, Option.some.injEq, Prod.mk.injEq] at h
      obtain ⟨h1, h2⟩ := h
      subst h1 h2
      refine ⟨?_, hd, ?_, ?_⟩
      · rw [List.append_assoc, List.takeWhile_append_dropWhile]
      · intro c hc
        exact List.mem_takeWhile_imp hc
      · intro c hc
        have := List.head?_dropWhile_not Char.isDigit t
        rw [Option.mem_def] at hc
        rw [hc] at this
        simpa using this
  · rw [if_neg hp] at h
    exact absurd h (by simp)

theorem takeWhile_digits (ds rest : Str) (hds : digitsOnly ds) (hrest : noLeadingDigit rest) :
    (ds ++ rest).takeWhile Char.isDigit = ds ∧ (ds ++ rest).dropWhile Char.isDigit = rest := by
  have h1 : rest.takeWhile Char.isDigit = [] ∧ rest.dropWhile Char.isDigit = rest := by
    cases rest with
    | nil => simp
    | cons c cs =>
      have : c.isDigit = false := hrest c (by simp)
      simp [List.takeWhile, List.dropWhile, this]
  constructor
  · rw [List.takeWhile_append_of_pos hds, h1.1, List.append_nil]
  · rw [List.dropWhile_append_of_pos hds, h1.2]

theorem matchVersionAt_token (ds rest : Str) (hne : ds ≠ []) (hds : digitsOnly ds)
    (hrest : noLeadingDigit rest) :
    matchVersionAt ("redhat-".toList ++ ds ++ rest) = some (ds, rest) := by
  unfold matchVersionAt
  have hp : stringsHasPrefix ("redhat-".toList ++ ds ++ rest) "redhat-".toList = true := by
    simp only [stringsHasPrefix, List.isPrefixOf_iff_prefix, List.append_assoc]
    exact List.prefix_append _ _
  have hdrop : ("redhat-".toList ++ ds ++ rest).drop 7 = ds ++ rest := by
    have : ("redhat-".toList).length = 7 := by decide
    rw [List.append_assoc, ← this, List.drop_left]
  rw [if_pos hp]
  simp only [hdrop]
  obtain ⟨h1, h2⟩ := takeWhile_digits ds rest hds hrest
  rw [h1, h2, if_neg hne]

/-- A match at the first character is a version token there, and conversely. -/
theorem matchVersionAt_isSome_iff (s : Str) :
    (matchVersionAt s).isSome = true ↔
      ∃ (d : Char) (v : Str), d.isDigit = true ∧ s = "redhat-".toList ++ d :: v := by
  constructor
  · intro h
    obtain ⟨⟨ds, rest⟩, hm⟩ := Option.isSome_iff_exists.mp h
    obtain ⟨hs, hne, hds, _⟩ := matchVersionAt_eq_some s ds rest hm
    cases ds with
    | nil => exact absurd rfl hne
    | cons d ds' =>
      exact ⟨d, ds' ++ rest, hds d (by simp), by rw [hs]; simp⟩
  · rintro ⟨d, v, hd, rfl⟩
    have hsplit : d :: v = (d :: v).takeWhile Char.isDigit ++ (d :: v).dropWhile Char.isDigit :=
      (List.takeWhile_append_dropWhile _ _).symm
    have hne : (d :: v).takeWhile Char.isDigit ≠ [] := by simp [List.takeWhile, hd]
    have hds : digitsOnly ((d :: v).takeWhile Char.isDigit) := fun c hc =>
      List.mem_takeWhile_imp hc
    have hrest : noLeadingDigit ((d :: v).dropWhile Char.isDigit) := by
      intro c hc
      have := List.head?_dropWhile_not Char.isDigit (d :: v)
      rw [Option.mem_def] at hc
      rw [hc] at this
      simpa using this
    have := matchVersionAt_token _ _ hne hds hrest
    rw [List.append_assoc, ← hsplit] at this
    rw [this]
    rfl

theorem matchVersionAt_none_of_not_token (s : Str)
    (h : ¬ ∃ (d : Char) (v : Str), d.isDigit = true ∧ s = "redhat-".toList ++ d :: v) :
    matchVersionAt s = none := by
  cases hm : matchVersionAt s with
  | none => rfl
  | some x =>
    exact absurd ((matchVersionAt_isSome_iff s).mp (by rw [hm]; rfl)) h

theorem matchVersionAt_length (s ds rest : Str) (h : matchVersionAt s = some (ds, rest)) :
    rest.length < s.length := by
  obtain ⟨hs, _, _, _⟩ := matchVersionAt_eq_some s ds rest h
  rw [hs]
  simp only [List.length_append]
  have : ("redhat-".toList).length = 7 := by decide
  omega

theorem replaceAllAux_fuel (repl : Str) (fuel₁ : Nat) :
    ∀ (fuel₂ : Nat) (s : Str), s.length ≤ fuel₁ → s.length ≤ fuel₂ →
      replaceAllAux repl fuel₁ s = replaceAllAux repl fuel₂ s := by
  induction fuel₁ with
  | zero =>
    intro fuel₂ s h1 _
    have hs : s = [] := List.length_eq_zero.mp (Nat.le_zero.mp h1)
    subst hs
    cases fuel₂ <;> simp [replaceAllAux]
  | succ n ih =>
    intro fuel₂ s h1 h2
    cases s with
    | nil => cases fuel₂ <;> simp [replaceAllAux]
    | cons c cs =>
      cases fuel₂ with
      | zero => simp at h2
      | succ m =>
        simp only [replaceAllAux]
        cases hm : matchVersionAt (c :: cs) with
        | none =>
          simp only []
          rw [ih m cs (by simpa using h1) (by simpa using h2)]
        | some x =>
          obtain ⟨ds, rest⟩ := x
          have hl := matchVersionAt_length _ _ _ hm
          simp only [List.length_cons] at hl h1 h2
          simp only []
          rw [ih m rest (by omega) (by omega)]

theorem replaceAll_nil (repl : Str) : versionRegexpReplaceAllString [] repl = [] := by
  simp [versionRegexpReplaceAllString, replaceAllAux]

theorem replaceAll_match (repl s ds rest : Str) (h : matchVersionAt s = some (ds, rest)) :
    versionRegexpReplaceAllString s repl =
      expand ("redhat-".toList ++ ds) ds repl ++ versionRegexpReplaceAllString rest repl := by
  have hl := matchVersionAt_length _ _ _ h
  cases s with
  | nil => simp at hl
  | cons c cs =>
    simp only [versionRegexpReplaceAllString, List.length_cons, replaceAllAux, h]
    simp only [List.length_cons] at hl
    rw [replaceAllAux_fuel repl cs.length rest.length rest (by omega) (le_refl _)]

theorem replaceAll_skip (repl : Str) (c : Char) (cs : Str) (h : matchVersionAt (c :: cs) = none) :
    versionRegexpReplaceAllString (c :: cs) repl = c :: versionRegexpReplaceAllString cs repl := by
  simp only [versionRegexpReplaceAllString, List.length_cons, replaceAllAux, h]

theorem expandAux_plain (whole group1 : Str) (fuel : Nat) :
    ∀ template : Str, '$' ∉ template → expandAux whole group1 fuel template = template := by
  induction fuel with
  | zero => intro t _; simp [expandAux]
  | succ n ih =>
    intro t ht
    cases t with
    | nil => simp [expandAux]
    | cons c after =>
      have hc : c ≠ '$' := fun h => ht (by simp [h])
      have ha : '$' ∉ after := fun h => ht (by simp [h])
      simp [expandAux, hc, ih after ha]

theorem digitsOnly_no_dollar (n : Str) (hn : digitsOnly n) : '$' ∉ "redhat-".toList ++ n := by
  intro h
  rcases List.mem_append.mp h with h | h
  · revert h; decide
  · have := hn _ h
    revert this; decide

/-- With a digits-only number the replacement of a match is the literal text
`redhat-` followed by the number. -/
theorem expand_digits (whole group1 n : Str) (hn : digitsOnly n) :
    expand whole group1 ("redhat-".toList ++ n) = "redhat-".toList ++ n :=
  expandAux_plain _ _ _ _ (digitsOnly_no_dollar n hn)

theorem not_hasVersionToken_tail (c : Char) (cs : Str) (h : ¬ HasVersionToken (c :: cs)) :
    ¬ HasVersionToken cs := by
  rintro ⟨u, d, v, hd, rfl⟩
  exact h ⟨c :: u, d, v, hd, by simp⟩

theorem matchVersionAt_none_of_no_token (s : Str) (h : ¬ HasVersionToken s) :
    matchVersionAt s = none := by
  apply matchVersionAt_none_of_not_token
  rintro ⟨d, v, hd, rfl⟩
  exact h ⟨[], d, v, hd, by simp⟩

theorem replaceAll_no_token (repl : Str) (s : Str) (h : ¬ HasVersionToken s) :
    versionRegexpReplaceAllString s repl = s := by
  induction s with
  | nil => exact replaceAll_nil repl
  | cons c cs ih =>
    rw [replaceAll_skip repl c cs (matchVersionAt_none_of_no_token _ h),
      ih (not_hasVersionToken_tail c cs h)]

theorem tokenAtHead_iff (s : Str) :
    tokenAtHead s = true ↔
      ∃ (d : Char) (v : Str), d.isDigit = true ∧ s = "redhat-".toList ++ d :: v := by
  constructor
  · intro h
    unfold tokenAtHead at h
    split at h
    · next d v => exact ⟨d, v, h, rfl⟩
    · exact absurd h (by simp)
  · rintro ⟨d, v, hd, rfl⟩
    simpa [tokenAtHead] using hd

theorem hasVersionTokenB_iff (s : Str) : hasVersionTokenB s = true ↔ HasVersionToken s := by
  constructor
  · intro h
    induction s with
    | nil => simp [hasVersionTokenB] at h
    | cons c cs ih =>
      simp only [hasVersionTokenB, Bool.or_eq_true] at h
      rcases h with h | h
      · obtain ⟨d, v, hd, hs⟩ := (tokenAtHead_iff _).mp h
        exact ⟨[], d, v, hd, by simpa using hs⟩
      · obtain ⟨u, d, v, hd, hs⟩ := ih h
        exact ⟨c :: u, d, v, hd, by simp [hs]⟩
  · rintro ⟨u, d, v, hd, rfl⟩
    induction u with
    | nil =>
      have : tokenAtHead ("redhat-".toList ++ d :: v) = true :=
        (tokenAtHead_iff _).mpr ⟨d, v, hd, rfl⟩
      simpa [hasVersionTokenB] using Or.inl this
    | cons c u ih =>
      simp only [List.cons_append, hasVersionTokenB, Bool.or_eq_true]
      right
      simpa using ih

theorem no_token_of_B (s : Str) (h : hasVersionTokenB s = false) : ¬ HasVersionToken s := by
  intro ht
  rw [(hasVersionTokenB_iff s).mpr ht] at h
  exact absurd h (by simp)

theorem redhat_chars : "redhat-".toList = ['r', 'e', 'd', 'h', 'a', 't', '-'] := rfl

/-- No match starts inside a token-free text that is followed by `redhat-`: the
expression needs a digit as its eighth character. -/
theorem matchVersionAt_before_token (a t : Str) (hne : a ≠ []) (ha : ¬ HasVersionToken a) :
    matchVersionAt (a ++ ("redhat-".toList ++ t)) = none := by
  apply matchVersionAt_none_of_not_token
  rintro ⟨dg, v, hdg, heq⟩
  have hr : ('r' : Char).isDigit = false := by decide
  rw [redhat_chars] at heq
  rcases a with _ | ⟨x1, a⟩
  · exact hne rfl
  rcases a with _ | ⟨x2, a⟩
  · simp at heq
  rcases a with _ | ⟨x3, a⟩
  · simp at heq
  rcases a with _ | ⟨x4, a⟩
  · simp at heq
  rcases a with _ | ⟨x5, a⟩
  · simp at heq
  rcases a with _ | ⟨x6, a⟩
  · simp at heq
  rcases a with _ | ⟨x7, a⟩
  · simp at heq
  rcases a with _ | ⟨x8, a⟩
  · simp at heq
    obtain ⟨-, -, -, -, -, -, -, h8, -⟩ := heq
    rw [← h8, hr] at hdg
    exact absurd hdg (by simp)
  · simp at heq
    obtain ⟨h1, h2, h3, h4, h5, h6, h7, h8, -⟩ := heq
    subst h1 h2 h3 h4 h5 h6 h7 h8
    exact ha ⟨[], x8, a, hdg, rfl⟩

theorem replaceAll_prefix (repl y : Str) (a : Str)
    (h : ∀ a₁ a₂ : Str, a = a₁ ++ a₂ → a₂ ≠ [] → matchVersionAt (a₂ ++ y) = none) :
    versionRegexpReplaceAllString (a ++ y) repl = a ++ versionRegexpReplaceAllString y repl := by
  induction a with
  | nil => rfl
  | cons c cs ih =>
    have h0 := h [] (c :: cs) rfl (by simp)
    rw [List.cons_append] at h0 ⊢
    rw [replaceAll_skip repl c _ h0, ih]
    · rfl
    · intro a₁ a₂ ha hne
      exact h (c :: a₁) a₂ (by simp [ha]) hne

theorem not_hasVersionToken_suffix (a₁ a₂ : Str) (h : ¬ HasVersionToken (a₁ ++ a₂)) :
    ¬ HasVersionToken a₂ := by
  induction a₁ with
  | nil => simpa using h
  | cons c cs ih => exact ih (not_hasVersionToken_tail c _ h)

/-- A first output character other than `r` was copied from the input: the
replacement text starts with `r`. -/
theorem replaceAll_head (n s t : Str) (x : Char) (hn : digitsOnly n) (hx : x ≠ 'r')
    (h : versionRegexpReplaceAllString s ("redhat-".toList ++ n) = x :: t) :
    ∃ s', s = x :: s' ∧ versionRegexpReplaceAllString s' ("redhat-".toList ++ n) = t := by
  cases s with
  | nil => rw [replaceAll_nil] at h; exact absurd h (by simp)
  | cons c cs =>
    cases hm : matchVersionAt (c :: cs) with
    | none =>
      rw [replaceAll_skip _ c cs hm] at h
      simp only [List.cons.injEq] at h
      exact ⟨cs, by rw [h.1], h.2⟩
    | some m =>
      obtain ⟨ds, rest⟩ := m
      rw [replaceAll_match _ _ ds rest hm, expand_digits _ _ n hn, redhat_chars] at h
      simp only [List.cons_append, List.cons.injEq] at h
      exact absurd h.1.symm hx

theorem digit_ne_r (d : Char) (hd : d.isDigit = true) : d ≠ 'r' := by
  intro h
  subst h
  revert hd
  decide

/-- A token at the head of `c :: output` was already at the head of
`c :: input`. -/
theorem matchVersionAt_of_output (n cs : Str) (c : Char) (hn : digitsOnly n)
    (h : matchVersionAt (c :: versionRegexpReplaceAllString cs ("redhat-".toList ++ n)) ≠ none) :
    matchVersionAt (c :: cs) ≠ none := by
  have hsome : (matchVersionAt
      (c :: versionRegexpReplaceAllString cs ("redhat-".toList ++ n))).isSome = true := by
    cases hm : matchVersionAt (c :: versionRegexpReplaceAllString cs ("redhat-".toList ++ n)) with
    | none => exact absurd hm h
    | some _ => rfl
  obtain ⟨dg, v, hdg, heq⟩ := (matchVersionAt_isSome_iff _).mp hsome
  rw [redhat_chars] at heq
  simp only [List.cons_append, List.nil_append, List.cons.injEq] at heq
  obtain ⟨hc, h1⟩ := heq
  obtain ⟨s1, e1, h2⟩ := replaceAll_head n _ _ 'e' hn (by decide) h1
  obtain ⟨s2, e2, h3⟩ := replaceAll_head n _ _ 'd' hn (by decide) h2
  obtain ⟨s3, e3, h4⟩ := replaceAll_head n _ _ 'h' hn (by decide) h3
  obtain ⟨s4, e4, h5⟩ := replaceAll_head n _ _ 'a' hn (by decide) h4
  obtain ⟨s5, e5, h6⟩ := replaceAll_head n _ _ 't' hn (by decide) h5
  obtain ⟨s6, e6, h7⟩ := replaceAll_head n _ _ '-' hn (by decide) h6
  obtain ⟨s7, e7, -⟩ := replaceAll_head n _ _ dg hn (digit_ne_r dg hdg) h7
  subst hc e1 e2 e3 e4 e5 e6 e7
  intro hnone
  have : (matchVersionAt ('r' :: 'e' :: 'd' :: 'h' :: 'a' :: 't' :: '-' :: dg :: s7)).isSome
      = true := (matchVersionAt_isSome_iff _).mpr ⟨dg, s7, hdg, rfl⟩
  rw [hnone] at this
  exact absurd this (by simp)

theorem noLeadingDigit_output (n s : Str) (hn : digitsOnly n) (hs : noLeadingDigit s) :
    noLeadingDigit (versionRegexpReplaceAllString s ("redhat-".toList ++ n)) := by
  intro x hx
  cases hout : versionRegexpReplaceAllString s ("redhat-".toList ++ n) with
  | nil => rw [hout] at hx; simp at hx
  | cons y t =>
    rw [hout] at hx
    simp only [List.head?_cons, Option.mem_def, Option.some.injEq] at hx
    subst hx
    by_contra hd
    have hd' : y.isDigit = true := by simpa using hd
    obtain ⟨s', e, -⟩ := replaceAll_head n s t y hn (digit_ne_r y hd') hout
    subst e
    have := hs y (by simp)
    rw [this] at hd'
    exact absurd hd' (by simp)

/-- The replacement text followed by a text without leading digit is
rewritten to itself followed by the rewritten text. -/
theorem replaceAll_after_replacement (n y : Str) (hn : digitsOnly n) (hy : noLeadingDigit y) :
    versionRegexpReplaceAllString ("redhat-".toList ++ n ++ y) ("redhat-".toList ++ n) =
      "redhat-".toList ++ n ++ versionRegexpReplaceAllString y ("redhat-".toList ++ n) := by
  by_cases hne : n = []
  · subst hne
    rw [List.append_nil]
    apply replaceAll_prefix
    intro a₁ a₂ ha hne2
    apply matchVersionAt_none_of_not_token
    rintro ⟨dg, v, hdg, heq⟩
    rw [redhat_chars] at ha heq
    rcases a₁ with _ | ⟨x1, a₁⟩
    · simp only [List.nil_append] at ha
      subst ha
      simp only [List.cons_append, List.nil_append, List.cons.injEq, true_and] at heq
      have := hy dg (by simp [heq])
      rw [this] at hdg
      exact absurd hdg (by simp)
    rcases a₁ with _ | ⟨x2, a₁⟩
    · simp at ha; obtain ⟨-, ha⟩ := ha; subst ha; simp at heq
    rcases a₁ with _ | ⟨x3, a₁⟩
    · simp at ha; obtain ⟨-, -, ha⟩ := ha; subst ha; simp at heq
    rcases a₁ with _ | ⟨x4, a₁⟩
    · simp at ha; obtain ⟨-, -, -, ha⟩ := ha; subst ha; simp at heq
    rcases a₁ with _ | ⟨x5, a₁⟩
    · simp at ha; obtain ⟨-, -, -, -, ha⟩ := ha; subst ha; simp at heq
    rcases a₁ with _ | ⟨x6, a₁⟩
    · simp at ha; obtain ⟨-, -, -, -, -, ha⟩ := ha; subst ha; simp at heq
    rcases a₁ with _ | ⟨x7, a₁⟩
    · simp at ha; obtain ⟨-, -, -, -, -, -, ha⟩ := ha; subst ha; simp at heq
    · simp at ha
      exact hne2 ha.2.2.2.2.2.2.2.2
  · rw [replaceAll_match _ _ n y (matchVersionAt_token n y hne hn hy), expand_digits _ _ n hn]

theorem replaceAll_idem (n : Str) (hn : digitsOnly n) (k : Nat) :
    ∀ s : Str, s.length ≤ k →
      versionRegexpReplaceAllString (versionRegexpReplaceAllString s ("redhat-".toList ++ n))
        ("redhat-".toList ++ n) = versionRegexpReplaceAllString s ("redhat-".toList ++ n) := by
  induction k with
  | zero =>
    intro s hs
    have : s = [] := List.length_eq_zero.mp (Nat.le_zero.mp hs)
    subst this
    rw [replaceAll_nil, replaceAll_nil]
  | succ k ih =>
    intro s hs
    cases s with
    | nil => rw [replaceAll_nil, replaceAll_nil]
    | cons c cs =>
      simp only [List.length_cons] at hs
      cases hm : matchVersionAt (c :: cs) with
      | none =>
        rw [replaceAll_skip _ c cs hm]
        have hnone : matchVersionAt
            (c :: versionRegexpReplaceAllString cs ("redhat-".toList ++ n)) = none := by
          by_contra hcon
          exact matchVersionAt_of_output n cs c hn hcon hm
        rw [replaceAll_skip _ c _ hnone, ih cs (by omega)]
      | some m =>
        obtain ⟨ds, rest⟩ := m
        have hl := matchVersionAt_length _ _ _ hm
        simp only [List.length_cons] at hl
        obtain ⟨-, -, -, hrest⟩ := matchVersionAt_eq_some _ _ _ hm
        rw [replaceAll_match _ _ ds rest hm, expand_digits _ _ n hn,
          replaceAll_after_replacement n _ hn (noLeadingDigit_output n rest hn hrest),
          ih rest (by omega)]

/-! ## Lemmas on paths -/

theorem splitSlash_ne_nil (s : Str) : splitSlash s ≠ [] := by
  cases s with
  | nil => simp [splitSlash]
  | cons c cs =>
    unfold splitSlash
    by_cases hc : c = '/'
    · simp [hc]
    · rw [if_neg hc]
      cases splitSlash cs <;> simp

theorem splitSlash_append_slash (a b : Str) :
    splitSlash (a ++ '/' :: b) = splitSlash a ++ splitSlash b := by
  induction a with
  | nil => simp [splitSlash]
  | cons c cs ih =>
    rw [List.cons_append, splitSlash, splitSlash]
    by_cases hc : c = '/'
    · simp [hc, ih]
    · rw [if_neg hc, if_neg hc, ih]
      cases h : splitSlash cs with
      | nil => exact absurd h (splitSlash_ne_nil cs)
      | cons seg segs => simp

theorem joinSlash_splitSlash (s : Str) : joinSlash (splitSlash s) = s := by
  induction s with
  | nil => simp [splitSlash, joinSlash]
  | cons c cs ih =>
    unfold splitSlash
    by_cases hc : c = '/'
    · rw [if_pos hc]
      cases h : splitSlash cs with
      | nil => exact absurd h (splitSlash_ne_nil cs)
      | cons seg segs =>
        rw [h] at ih
        simp [joinSlash, ih, hc]
    · rw [if_neg hc]
      cases h : splitSlash cs with
      | nil => exact absurd h (splitSlash_ne_nil cs)
      | cons seg segs =>
        rw [h] at ih
        cases segs with
        | nil => simp [joinSlash] at ih ⊢; exact ih
        | cons seg' segs' => simp [joinSlash] at ih ⊢; exact ih

theorem joinSlash_append (xs ys : List Str) (hx : xs ≠ []) (hy : ys ≠ []) :
    joinSlash (xs ++ ys) = joinSlash xs ++ '/' :: joinSlash ys := by
  induction xs with
  | nil => exact absurd rfl hx
  | cons x xs ih =>
    cases xs with
    | nil =>
      cases ys with
      | nil => exact absurd rfl hy
      | cons y ys => simp [joinSlash]
    | cons x' xs' =>
      have := ih (by simp)
      simp only [List.cons_append] at this ⊢
      simp [joinSlash, this]

theorem foldl_cleanStep_good (rooted : Bool) (segs : List Str)
    (h : ∀ seg ∈ segs, goodSegment seg = true) (out : List Str) (dd : Nat) :
    segs.foldl (cleanStep rooted) (out, dd) = (out ++ segs, dd) := by
  induction segs generalizing out with
  | nil => simp
  | cons seg segs ih =>
    have hg := h seg (by simp)
    simp only [goodSegment, Bool.and_eq_true, decide_eq_true_eq] at hg
    obtain ⟨⟨h1, h2⟩, h3⟩ := hg
    have hstep : cleanStep rooted (out, dd) seg = (out ++ [seg], dd) := by
      simp [cleanStep, h1, h2, h3]
    rw [List.foldl_cons, hstep, ih (fun s hs => h s (by simp [hs]))]
    simp

theorem isCleanRel_ne_nil (s : Str) (h : isCleanRel s = true) : s ≠ [] := by
  intro hs
  subst hs
  revert h
  decide

/-- What `path.Join` returns on `api/content`, a clean store path and a clean
path below the root. -/
theorem pathJoin_clean (s p : Str) (hs : isCleanRel s = true) (hp : isCleanAbs p = true) :
    pathJoin ["api/content".toList, s, p] = "api/content/".toList ++ s ++ p := by
  have hsne := isCleanRel_ne_nil s hs
  obtain ⟨p', rfl, hp'⟩ : ∃ p', p = '/' :: p' ∧ isCleanRel p' = true := by
    unfold isCleanAbs at hp
    split at hp
    · next rest => exact ⟨rest, rfl, hp⟩
    · exact absurd hp (by simp)
  have hfilter : (["api/content".toList, s, '/' :: p'] : List Str).filter (fun e => e ≠ []) =
      ["api/content".toList, s, '/' :: p'] := by
    simp [List.filter, hsne]
  unfold pathJoin
  simp only [hfilter]
  rw [if_neg (by simp)]
  have hjoin : joinSlash ["api/content".toList, s, '/' :: p'] =
      "api".toList ++ '/' :: ("content".toList ++ '/' :: (s ++ '/' :: ([] ++ '/' :: p'))) := by
    simp [joinSlash]
  rw [hjoin]
  unfold pathClean
  rw [if_neg (by simp)]
  have hrooted : (("api".toList ++ '/' :: ("content".toList ++ '/' :: (s ++ '/' ::
      ([] ++ '/' :: p')))).head? = some '/') = False := by simp
  simp only [hrooted, if_false, decide_False]
  rw [splitSlash_append_slash, splitSlash_append_slash, splitSlash_append_slash,
    splitSlash_append_slash]
  have hs' : ∀ seg ∈ splitSlash s, goodSegment seg = true := by
    simpa [isCleanRel, List.all_eq_true] using hs
  have hp'' : ∀ seg ∈ splitSlash p', goodSegment seg = true := by
    simpa [isCleanRel, List.all_eq_true] using hp'
  have hapi : splitSlash "api".toList = ["api".toList] := by decide
  have hcontent : splitSlash "content".toList = ["content".toList] := by decide
  have hnil : splitSlash [] = [[]] := rfl
  rw [hapi, hcontent, hnil]
  have hfold : (["api".toList] ++ (["content".toList] ++ (splitSlash s ++
      ([[]] ++ splitSlash p')))).foldl (cleanStep false) ([], 0) =
      (["api".toList, "content".toList] ++ splitSlash s ++ splitSlash p', 0) := by
    rw [show ["api".toList] ++ (["content".toList] ++ (splitSlash s ++ ([[]] ++ splitSlash p')))
        = (["api".toList, "content".toList] ++ splitSlash s) ++ ([] :: splitSlash p') by simp]
    have h1 : (["api".toList, "content".toList] ++ splitSlash s).foldl (cleanStep false) ([], 0) =
        ([] ++ (["api".toList, "content".toList] ++ splitSlash s), 0) := by
      apply foldl_cleanStep_good
      intro seg hseg
      simp only [List.mem_append, List.mem_cons, List.mem_singleton, List.not_mem_nil,
        or_false] at hseg
      rcases hseg with (h | h) | h
      · subst h; decide
      · subst h; decide
      · exact hs' seg h
    have h2 : cleanStep false ([] ++ (["api".toList, "content".toList] ++ splitSlash s), 0) [] =
        ([] ++ (["api".toList, "content".toList] ++ splitSlash s), 0) := by
      simp [cleanStep]
    rw [List.foldl_append, h1, List.foldl_cons, h2, foldl_cleanStep_good _ _ hp'']
    simp
  rw [hfold]
  show (if ["api".toList, "content".toList] ++ splitSlash s ++ splitSlash p' = [] then ['.']
    else joinSlash (["api".toList, "content".toList] ++ splitSlash s ++ splitSlash p')) = _
  rw [if_neg (by simp)]
  rw [joinSlash_append _ _ (by simp) (splitSlash_ne_nil p'),
    joinSlash_append _ _ (by simp) (splitSlash_ne_nil s), joinSlash_splitSlash,
    joinSlash_splitSlash]
  simp [joinSlash]

/-! ## Lemmas on the upload loop -/

theorem uploadLoop_lookup_other (storeKeyToPath : Str → Str)
    (originalIndy targetIndy newBuildId n p : Str)
    (hn : sliceFrom newBuildId BUILD_TEST_.length = some n) (post : List TrackedContentEntry) :
    ∀ result : GoMap, (∀ e ∈ post, e.Path ≠ p) →
      ∃ m, uploadLoop storeKeyToPath originalIndy targetIndy newBuildId post result = some m ∧
        m.lookup p = result.lookup p := by
  induction post with
  | nil => intro result _; exact ⟨result, rfl, rfl⟩
  | cons e post ih =>
    intro result h
    simp only [uploadLoop, hn]
    obtain ⟨m, hm, hl⟩ := ih (result.insert e.Path
      (uploadUrls storeKeyToPath originalIndy targetIndy newBuildId n e))
      (fun e' he' => h e' (by simp [he']))
    refine ⟨m, hm, ?_⟩
    rw [hl, GoMap.lookup_insert_other _ _ _ _ (h e (by simp))]

/-- The value the upload loop leaves under the path of an entry that no later
entry shares: the pair built from that entry. -/
theorem uploadLoop_lookup_last (storeKeyToPath : Str → Str)
    (originalIndy targetIndy newBuildId n : Str)
    (hn : sliceFrom newBuildId BUILD_TEST_.length = some n) (up : TrackedContentEntry)
    (post : List TrackedContentEntry) (hpost : ∀ e ∈ post, e.Path ≠ up.Path)
    (pre : List TrackedContentEntry) :
    ∀ result : GoMap,
      ∃ m, uploadLoop storeKeyToPath originalIndy targetIndy newBuildId (pre ++ up :: post)
          result = some m ∧
        m.lookup up.Path =
          some (uploadUrls storeKeyToPath originalIndy targetIndy newBuildId n up) := by
  induction pre with
  | nil =>
    intro result
    simp only [List.nil_append, uploadLoop, hn]
    obtain ⟨m, hm, hl⟩ := uploadLoop_lookup_other storeKeyToPath originalIndy targetIndy
      newBuildId n up.Path hn post (result.insert up.Path
        (uploadUrls storeKeyToPath originalIndy targetIndy newBuildId n up)) hpost
    exact ⟨m, hm, by rw [hl, GoMap.lookup_insert_self]⟩
  | cons e pre ih =>
    intro result
    simp only [List.cons_append, uploadLoop, hn]
    exact ih _

theorem sliceFrom_of_le (s : Str) (k : Nat) (h : k ≤ s.length) :
    sliceFrom s k = some (s.drop k) := by
  simp [sliceFrom, h]

/-! ## Lemmas on the runs of `concurrentRun` -/

theorem finalLoop_true (results : List Bool) :
    finalLoop true results = results.all (fun r => r) := by
  have h : ∀ (rs : List Bool) (b : Bool), b = true → finalLoop b rs = rs.all (fun r => r) := by
    intro rs
    induction rs with
    | nil => intro b hb; simp [finalLoop, hb]
    | cons r rs ih =>
      intro b _
      cases r with
      | false => simp [finalLoop]
      | true => simp [finalLoop, ih true rfl]
  exact h results true rfl

theorem heldJobs_set (ws : List Worker) :
    ∀ (i : Nat) (w w' : Worker), ws[i]? = some w →
      (heldJobs (ws.set i w') ++ w.held).Perm (heldJobs ws ++ w'.held) := by
  induction ws with
  | nil => intro i w w' h; simp at h
  | cons x xs ih =>
    intro i w w' h
    cases i with
    | zero =>
      simp only [List.getElem?_cons_zero, Option.some.injEq] at h
      subst h
      simp only [List.set_cons_zero, heldJobs]
      have h1 : (w'.held ++ heldJobs xs ++ x.held).Perm (x.held ++ (w'.held ++ heldJobs xs)) :=
        List.perm_append_comm
      have h2 : (x.held ++ (w'.held ++ heldJobs xs)).Perm (x.held ++ (heldJobs xs ++ w'.held)) :=
        List.Perm.append_left _ List.perm_append_comm
      exact h1.trans (h2.trans (by rw [List.append_assoc]))
    | succ j =>
      simp only [List.getElem?_cons_succ] at h
      simp only [List.set_cons_succ, heldJobs, List.append_assoc]
      exact List.Perm.append_left _ (ih j w w' h)

theorem weightSum_set (ws : List Worker) :
    ∀ (i : Nat) (w w' : Worker), ws[i]? = some w →
      weightSum (ws.set i w') + w.weight = weightSum ws + w'.weight := by
  induction ws with
  | nil => intro i w w' h; simp at h
  | cons x xs ih =>
    intro i w w' h
    cases i with
    | zero =>
      simp only [List.getElem?_cons_zero, Option.some.injEq] at h
      subst h
      simp only [List.set_cons_zero, weightSum]
      omega
    | succ j =>
      simp only [List.getElem?_cons_succ] at h
      simp only [List.set_cons_succ, weightSum]
      have := ih j w w' h
      omega

theorem mem_set_of_ne (ws : List Worker) :
    ∀ (i : Nat) (w w' x : Worker), ws[i]? = some w → x ∈ ws → x ≠ w → x ∈ ws.set i w' := by
  induction ws with
  | nil => intro i w w' x h; simp at h
  | cons y ys ih =>
    intro i w w' x h hx hne
    cases i with
    | zero =>
      simp only [List.getElem?_cons_zero, Option.some.injEq] at h
      subst h
      simp only [List.set_cons_zero, List.mem_cons] at hx ⊢
      rcases hx with hx | hx
      · exact absurd hx hne
      · exact Or.inr hx
    | succ j =>
      simp only [List.getElem?_cons_succ] at h
      simp only [List.set_cons_succ, List.mem_cons] at hx ⊢
      rcases hx with hx | hx
      · exact Or.inl hx
      · exact Or.inr (ih j w w' x h hx hne)

theorem mem_set_self (ws : List Worker) :
    ∀ (i : Nat) (w w' : Worker), ws[i]? = some w → w' ∈ ws.set i w' := by
  induction ws with
  | nil => intro i w w' h; simp at h
  | cons y ys ih =>
    intro i w w' h
    cases i with
    | zero => simp
    | succ j =>
      simp only [List.getElem?_cons_succ] at h
      simp only [List.set_cons_succ, List.mem_cons]
      exact Or.inr (ih j w w' h)

theorem mem_of_mem_set (ws : List Worker) :
    ∀ (i : Nat) (w' x : Worker), x ∈ ws.set i w' → x = w' ∨ x ∈ ws := by
  induction ws with
  | nil => intro i w' x h; simp at h
  | cons y ys ih =>
    intro i w' x h
    cases i with
    | zero =>
      simp only [List.set_cons_zero, List.mem_cons] at h ⊢
      rcases h with h | h
      · exact Or.inl h
      · exact Or.inr (Or.inr h)
    | succ j =>
      simp only [List.set_cons_succ, List.mem_cons] at h ⊢
      rcases h with h | h
      · exact Or.inr (Or.inl h)
      · rcases ih j w' x h with h | h
        · exact Or.inl h
        · exact Or.inr (Or.inr h)

theorem mem_of_getElem_some (ws : List Worker) (i : Nat) (w : Worker) (h : ws[i]? = some w) :
    w ∈ ws := by
  obtain ⟨hi, he⟩ := List.getElem?_eq_some.mp h
  rw [← he]
  exact List.getElem_mem hi

theorem getElem_some_of_mem (ws : List Worker) (w : Worker) (h : w ∈ ws) :
    ∃ i : Nat, ws[i]? = some w := by
  obtain ⟨i, hi, he⟩ := List.mem_iff_getElem.mp h
  exact ⟨i, by rw [List.getElem?_eq_getElem hi, he]⟩

theorem heldJobs_all_done (ws : List Worker) (h : ∀ w ∈ ws, w = Worker.done) :
    heldJobs ws = [] := by
  induction ws with
  | nil => rfl
  | cons w ws ih =>
    have hw := h w (by simp)
    subst hw
    simp [heldJobs, Worker.held, ih (fun w hw => h w (by simp [hw]))]

theorem heldJobs_replicate (n : Nat) : heldJobs (List.replicate n Worker.receiving) = [] := by
  induction n with
  | zero => rfl
  | succ n ih => simp [List.replicate_succ, heldJobs, Worker.held, ih]

theorem weightSum_replicate (n : Nat) : weightSum (List.replicate n Worker.receiving) = n := by
  induction n with
  | zero => rfl
  | succ n ih => simp [List.replicate_succ, weightSum, Worker.weight, ih]; omega

theorem runInv_init (job : Str → Str → Bool) (n : Nat) (order : List (Str × Str)) :
    RunInv job order n (concurrentRunInit n order) where
  perm := by simp [concurrentRunInit, heldJobs_replicate]
  results := by simp [concurrentRunInit]
  closed_pending := by simp [concurrentRunInit]
  done_closed := by
    intro h
    simp only [concurrentRunInit] at h
    have := List.eq_of_mem_replicate h
    exact absurd this (by simp)
  mu_running := by simp [concurrentRunInit]
  returned := by simp [concurrentRunInit]
  len := by simp [concurrentRunInit]

theorem runInv_step (capacity : Nat) (job : Str → Str → Bool) (jobs : List (Str × Str)) (n : Nat)
    (s s' : RunState) (act : Action) (hinv : RunInv job jobs n s)
    (hstep : step capacity job s act = some s') : RunInv job jobs n s' := by
  cases act with
  | send =>
    simp only [step] at hstep
    cases hp : s.pending with
    | nil => simp [hp] at hstep
    | cons a rest =>
      simp only [hp] at hstep
      split at hstep
      · simp only [Option.some.injEq] at hstep
        subst hstep
        refine ⟨?_, hinv.results, ?_, ?_, hinv.mu_running, hinv.returned, hinv.len⟩
        · have := hinv.perm
          rw [hp] at this
          simpa using this
        · intro hc
          have := hinv.closed_pending hc
          rw [hp] at this
          exact absurd this (by simp)
        · intro hd
          have := (hinv.done_closed hd).1
          have := hinv.closed_pending this
          rw [hp] at this
          exact absurd this (by simp)
      · exact absurd hstep (by simp)
  | close =>
    simp only [step] at hstep
    split at hstep
    · next hc =>
      simp only [Option.some.injEq] at hstep
      subst hstep
      refine ⟨hinv.perm, hinv.results, fun _ => hc.1, ?_, hinv.mu_running, hinv.returned,
        hinv.len⟩
      intro hd
      exact ⟨rfl, (hinv.done_closed hd).2⟩
    · exact absurd hstep (by simp)
  | recv i =>
    simp only [step] at hstep
    split at hstep
    · next hw =>
      split at hstep
      · next a rest hch =>
        simp only [Option.some.injEq] at hstep
        subst hstep
        have hnd : Worker.done ∉ s.workers := by
          intro hd
          have := (hinv.done_closed hd).2
          rw [hch] at this
          exact absurd this (by simp)
        refine ⟨?_, hinv.results, hinv.closed_pending, ?_, ?_, ?_, ?_⟩
        · have hperm := hinv.perm
          rw [hch] at hperm
          have hset := heldJobs_set s.workers i _ (Worker.locking a) hw
          simp only [Worker.held, List.append_nil] at hset
          refine List.Perm.trans ?_ hperm
          apply List.Perm.append_left
          simp only [List.cons_append]
          have h1 : (heldJobs (s.workers.set i (Worker.locking a)) ++ (rest ++ s.pending)).Perm
              ((heldJobs s.workers ++ [a]) ++ (rest ++ s.pending)) :=
            List.Perm.append_right _ hset
          refine h1.trans ?_
          simp
        · intro hd
          rcases mem_of_mem_set _ _ _ _ hd with h | h
          · exact absurd h (by simp)
          · exact absurd h hnd
        · intro hm
          obtain ⟨b, hb⟩ := hinv.mu_running hm
          exact ⟨b, mem_set_of_ne _ _ _ _ _ hw hb (by simp)⟩
        · intro r hr
          have := (hinv.returned r hr).2 _ (mem_of_getElem_some _ _ _ hw)
          exact absurd this (by simp)
        · simpa using hinv.len
      · next hch =>
        split at hstep
        · next hcl =>
          simp only [Option.some.injEq] at hstep
          subst hstep
          refine ⟨?_, hinv.results, hinv.closed_pending, fun _ => ⟨hcl, hch⟩, ?_, ?_, ?_⟩
          · have hset := heldJobs_set s.workers i _ Worker.done hw
            simp only [Worker.held, List.append_nil] at hset
            exact List.Perm.trans
              (List.Perm.append_left _ (List.Perm.append_right _ hset)) hinv.perm
          · intro hm
            obtain ⟨b, hb⟩ := hinv.mu_running hm
            exact ⟨b, mem_set_of_ne _ _ _ _ _ hw hb (by simp)⟩
          · intro r hr
            have := (hinv.returned r hr).2 _ (mem_of_getElem_some _ _ _ hw)
            exact absurd this (by simp)
          · simpa using hinv.len
        · exact absurd hstep (by simp)
    · exact absurd hstep (by simp)
  | lock i =>
    simp only [step] at hstep
    split at hstep
    · next a hw =>
      split at hstep
      · exact absurd hstep (by simp)
      · simp only [Option.some.injEq] at hstep
        subst hstep
        refine ⟨?_, hinv.results, hinv.closed_pending, ?_, ?_, ?_, ?_⟩
        · have hset := heldJobs_set s.workers i _ (Worker.running a) hw
          simp only [Worker.held] at hset
          have hset' := (List.perm_append_right_iff [a]).mp hset
          exact List.Perm.trans
            (List.Perm.append_left _ (List.Perm.append_right _ hset')) hinv.perm
        · intro hd
          rcases mem_of_mem_set _ _ _ _ hd with h | h
          · exact absurd h (by simp)
          · exact hinv.done_closed h
        · intro _
          exact ⟨a, mem_set_self _ _ _ _ hw⟩
        · intro r hr
          have := (hinv.returned r hr).2 _ (mem_of_getElem_some _ _ _ hw)
          exact absurd this (by simp)
        · simpa using hinv.len
    · exact absurd hstep (by simp)
  | run i =>
    simp only [step] at hstep
    split at hstep
    · next a hw =>
      simp only [Option.some.injEq] at hstep
      subst hstep
      refine ⟨?_, ?_, hinv.closed_pending, ?_, ?_, ?_, ?_⟩
      · have hset := heldJobs_set s.workers i _ Worker.receiving hw
        simp only [Worker.held, List.append_nil] at hset
        refine List.Perm.trans ?_ hinv.perm
        simp only [List.append_assoc]
        apply List.Perm.append_left
        have h1 : ([a] ++ (heldJobs (s.workers.set i Worker.receiving) ++ (s.ch ++ s.pending))).Perm
            ((heldJobs (s.workers.set i Worker.receiving) ++ [a]) ++ (s.ch ++ s.pending)) := by
          rw [← List.append_assoc]
          exact List.Perm.append_right _ List.perm_append_comm
        exact h1.trans (List.Perm.append_right _ hset)
      · simp [hinv.results]
      · intro hd
        rcases mem_of_mem_set _ _ _ _ hd with h | h
        · exact absurd h (by simp)
        · exact hinv.done_closed h
      · intro hm
        exact absurd hm (by simp)
      · intro r hr
        have := (hinv.returned r hr).2 _ (mem_of_getElem_some _ _ _ hw)
        exact absurd this (by simp)
      · simpa using hinv.len
    · exact absurd hstep (by simp)
  | ret =>
    simp only [step] at hstep
    split at hstep
    · next hc =>
      simp only [Option.some.injEq] at hstep
      subst hstep
      refine ⟨hinv.perm, hinv.results, hinv.closed_pending, hinv.done_closed, hinv.mu_running,
        ?_, hinv.len⟩
      intro r hr
      simp only [Option.some.injEq] at hr
      refine ⟨hr.symm, ?_⟩
      have := hc.2.2
      simpa [List.all_eq_true] using this
    · exact absurd hstep (by simp)

theorem runInv_exec (capacity : Nat) (job : Str → Str → Bool) (jobs : List (Str × Str)) (n : Nat)
    (schedule : List Action) :
    ∀ s s' : RunState, RunInv job jobs n s → exec capacity job schedule s = some s' →
      RunInv job jobs n s' := by
  induction schedule with
  | nil =>
    intro s s' hinv h
    simp only [exec, Option.some.injEq] at h
    exact h ▸ hinv
  | cons a rest ih =>
    intro s s' hinv h
    simp only [exec] at h
    cases hs : step capacity job s a with
    | none => simp [hs] at h
    | some s₁ =>
      simp only [hs] at h
      exact ih s₁ s' (runInv_step capacity job jobs n s s₁ a hinv hs) h

theorem stepsLeft_step (capacity : Nat) (job : Str → Str → Bool) (s s' : RunState) (act : Action)
    (hstep : step capacity job s act = some s') : stepsLeft s' < stepsLeft s := by
  cases act with
  | send =>
    simp only [step] at hstep
    cases hp : s.pending with
    | nil => simp [hp] at hstep
    | cons a rest =>
      simp only [hp] at hstep
      split at hstep
      · simp only [Option.some.injEq] at hstep
        subst hstep
        simp only [stepsLeft, hp, List.length_cons, List.length_append, List.length_nil]
        omega
      · exact absurd hstep (by simp)
  | close =>
    simp only [step] at hstep
    split at hstep
    · next hc =>
      simp only [Option.some.injEq] at hstep
      subst hstep
      simp only [stepsLeft, hc.2]
      simp
    · exact absurd hstep (by simp)
  | recv i =>
    simp only [step] at hstep
    split at hstep
    · next hw =>
      split at hstep
      · next a rest hch =>
        simp only [Option.some.injEq] at hstep
        subst hstep
        have := weightSum_set s.workers i _ (Worker.locking a) hw
        simp only [Worker.weight] at this
        simp only [stepsLeft, hch, List.length_cons]
        omega
      · next hch =>
        split at hstep
        · simp only [Option.some.injEq] at hstep
          subst hstep
          have := weightSum_set s.workers i _ Worker.done hw
          simp only [Worker.weight] at this
          simp only [stepsLeft]
          omega
        · exact absurd hstep (by simp)
    · exact absurd hstep (by simp)
  | lock i =>
    simp only [step] at hstep
    split at hstep
    · next a hw =>
      split at hstep
      · exact absurd hstep (by simp)
      · simp only [Option.some.injEq] at hstep
        subst hstep
        have := weightSum_set s.workers i _ (Worker.running a) hw
        simp only [Worker.weight] at this
        simp only [stepsLeft]
        omega
    · exact absurd hstep (by simp)
  | run i =>
    simp only [step] at hstep
    split at hstep
    · next a hw =>
      simp only [Option.some.injEq] at hstep
      subst hstep
      have := weightSum_set s.workers i _ Worker.receiving hw
      simp only [Worker.weight] at this
      simp only [stepsLeft]
      omega
    · exact absurd hstep (by simp)
  | ret =>
    simp only [step] at hstep
    split at hstep
    · next hc =>
      simp only [Option.some.injEq] at hstep
      subst hstep
      simp only [stepsLeft, hc.2.1]
      simp
    · exact absurd hstep (by simp)

theorem stepsLeft_exec (capacity : Nat) (job : Str → Str → Bool) (schedule : List Action) :
    ∀ s s' : RunState, exec capacity job schedule s = some s' →
      stepsLeft s' + schedule.length ≤ stepsLeft s := by
  induction schedule with
  | nil =>
    intro s s' h
    simp only [exec, Option.some.injEq] at h
    subst h
    simp
  | cons a rest ih =>
    intro s s' h
    simp only [exec] at h
    cases hs : step capacity job s a with
    | none => simp [hs] at h
    | some s₁ =>
      simp only [hs] at h
      have h1 := ih s₁ s' h
      have h2 := stepsLeft_step capacity job s s₁ a hs
      simp only [List.length_cons]
      omega

/-- A run that has not returned can take a step: no deadlock. -/
theorem step_enabled (capacity : Nat) (job : Str → Str → Bool) (jobs : List (Str × Str))
    (n : Nat) (s : RunState) (hinv : RunInv job jobs n s) (hn : 1 ≤ n) (hcap : 1 ≤ capacity)
    (hret : s.returned = none) : ∃ act s', step capacity job s act = some s' := by
  by_cases h1 : ∃ a, Worker.running a ∈ s.workers
  · obtain ⟨a, ha⟩ := h1
    obtain ⟨i, hi⟩ := getElem_some_of_mem _ _ ha
    exact ⟨Action.run i, _, by simp only [step, hi]; rfl⟩
  by_cases h2 : ∃ a, Worker.locking a ∈ s.workers
  · obtain ⟨a, ha⟩ := h2
    obtain ⟨i, hi⟩ := getElem_some_of_mem _ _ ha
    have hmu : s.mu = false := by
      cases hm : s.mu with
      | false => rfl
      | true => exact absurd (hinv.mu_running hm) h1
    exact ⟨Action.lock i, _, by simp only [step, hi, hmu]; rfl⟩
  by_cases h3 : Worker.receiving ∈ s.workers
  · obtain ⟨i, hi⟩ := getElem_some_of_mem _ _ h3
    cases hch : s.ch with
    | cons a rest => exact ⟨Action.recv i, _, by simp only [step, hi, hch]; rfl⟩
    | nil =>
      cases hcl : s.closed with
      | true => exact ⟨Action.recv i, _, by simp only [step, hi, hch, hcl]; rfl⟩
      | false =>
        cases hp : s.pending with
        | nil => exact ⟨Action.close, _, by simp only [step, hp, hcl]; rfl⟩
        | cons a rest =>
          refine ⟨Action.send, { s with pending := rest, ch := s.ch ++ [a] }, ?_⟩
          simp only [step, hp, hch, List.length_nil]
          rw [if_pos (by omega)]
  · have hall : ∀ w ∈ s.workers, w = Worker.done := by
      intro w hw
      cases w with
      | receiving => exact absurd hw h3
      | locking a => exact absurd ⟨a, hw⟩ h2
      | running a => exact absurd ⟨a, hw⟩ h1
      | done => rfl
    have hne : s.workers ≠ [] := by
      intro he
      have := hinv.len
      rw [he] at this
      simp at this
      omega
    obtain ⟨w, ws, hws⟩ := List.exists_cons_of_ne_nil hne
    have hd : Worker.done ∈ s.workers := by
      have := hall w (by rw [hws]; simp)
      rw [hws, this]
      simp
    have hcl := (hinv.done_closed hd).1
    refine ⟨Action.ret, { s with returned := some (finalLoop true s.results) }, ?_⟩
    simp only [step]
    rw [if_pos]
    refine ⟨hcl, hret, ?_⟩
    simpa [List.all_eq_true] using hall

/-- What a run of `concurrentRun` that has returned has done: every value was
passed to `job` exactly once and the value returned is the conjunction of
the results. -/
theorem run_returned (job : Str → Str → Bool) (jobs : List (Str × Str)) (n : Nat) (s : RunState)
    (hinv : RunInv job jobs n s) (hn : 1 ≤ n) (r : Bool) (hr : s.returned = some r) :
    s.invoked.Perm jobs ∧ r = jobs.all (fun a => job a.1 a.2) := by
  obtain ⟨hfinal, hall⟩ := hinv.returned r hr
  have hne : s.workers ≠ [] := by
    intro he
    have := hinv.len
    rw [he] at this
    simp at this
    omega
  obtain ⟨w, ws, hws⟩ := List.exists_cons_of_ne_nil hne
  have hd : Worker.done ∈ s.workers := by
    have := hall w (by rw [hws]; simp)
    rw [hws, this]
    simp
  obtain ⟨hcl, hch⟩ := hinv.done_closed hd
  have hp := hinv.closed_pending hcl
  have hperm := hinv.perm
  rw [heldJobs_all_done _ hall, hch, hp] at hperm
  simp only [List.append_nil] at hperm
  refine ⟨hperm, ?_⟩
  rw [hfinal, finalLoop_true, hinv.results]
  have : (s.invoked.map (fun a => job a.1 a.2)).Perm (jobs.map (fun a => job a.1 a.2)) :=
    hperm.map _
  rw [Bool.eq_iff_iff]
  simp only [List.all_eq_true]
  constructor
  · intro h a ha
    exact h _ (this.mem_iff.mpr (List.mem_map_of_mem _ ha))
  · intro h b hb
    obtain ⟨a, ha, rfl⟩ := List.mem_map.mp (this.mem_iff.mp hb)
    exact h a ha

theorem exec_append (capacity : Nat) (job : Str → Str → Bool) (σ₁ σ₂ : List Action) :
    ∀ s : RunState, exec capacity job (σ₁ ++ σ₂) s =
      (exec capacity job σ₁ s).bind (exec capacity job σ₂) := by
  induction σ₁ with
  | nil => intro s; rfl
  | cons a rest ih =>
    intro s
    simp only [List.cons_append, exec]
    cases step capacity job s a with
    | none => rfl
    | some s₁ => exact ih s₁

/-- Every run can be continued until `concurrentRun` returns. -/
theorem run_completes (capacity : Nat) (job : Str → Str → Bool) (jobs : List (Str × Str))
    (n : Nat) (hn : 1 ≤ n) (hcap : 1 ≤ capacity) (k : Nat) :
    ∀ s : RunState, stepsLeft s ≤ k → RunInv job jobs n s →
      ∃ rest s', exec capacity job rest s = some s' ∧ s'.returned.isSome = true := by
  induction k with
  | zero =>
    intro s hk _
    cases hr : s.returned with
    | some r => exact ⟨[], s, rfl, by rw [hr]; rfl⟩
    | none =>
      simp only [stepsLeft, hr] at hk
      simp at hk
  | succ k ih =>
    intro s hk hinv
    cases hr : s.returned with
    | some r => exact ⟨[], s, rfl, by rw [hr]; rfl⟩
    | none =>
      obtain ⟨act, s₁, hs₁⟩ := step_enabled capacity job jobs n s hinv hn hcap hr
      have hlt := stepsLeft_step capacity job s s₁ act hs₁
      obtain ⟨rest, s', hex, hret⟩ := ih s₁ (by omega)
        (runInv_step capacity job jobs n s s₁ act hinv hs₁)
      exact ⟨act :: rest, s', by simp only [exec, hs₁]; exact hex, hret⟩

theorem concurrentRun_inv (numWorkers : Nat) (order : List (Str × Str)) (job : Str → Str → Bool)
    (schedule : List Action) (s : RunState)
    (hrun : concurrentRun numWorkers order job schedule = some s) :
    RunInv job order numWorkers s :=
  runInv_exec _ job order numWorkers schedule _ s (runInv_init job numWorkers order) hrun

theorem concurrentRun_length (numWorkers : Nat) (order : List (Str × Str))
    (job : Str → Str → Bool) (schedule : List Action) (s : RunState)
    (hrun : concurrentRun numWorkers order job schedule = some s) :
    schedule.length ≤ 5 * order.length + numWorkers + 2 := by
  have h := stepsLeft_exec _ job schedule _ s hrun
  have hinit : stepsLeft (concurrentRunInit numWorkers order) =
      5 * order.length + numWorkers + 2 := by
    simp [stepsLeft, concurrentRunInit, weightSum_replicate]
  omega

/-! ## Lemmas on the sequential loop -/

theorem sequentialLoop_ok (job : Str → Str → Bool) (order : List (Str × Str))
    (h : ∀ x ∈ order, job x.1 x.2 = true) :
    ∀ invoked : List (Str × Str),
      sequentialLoop job order invoked false = (invoked ++ order, false) := by
  induction order with
  | nil => intro invoked; simp [sequentialLoop]
  | cons x rest ih =>
    intro invoked
    have hx := h x (by simp)
    simp only [sequentialLoop, hx, Bool.not_true]
    rw [if_neg (by simp), ih (fun y hy => h y (by simp [hy]))]
    simp

theorem sequentialLoop_fail (job : Str → Str → Bool) (pre post : List (Str × Str))
    (j : Str × Str) (hpre : ∀ x ∈ pre, job x.1 x.2 = true) (hj : job j.1 j.2 = false) :
    ∀ invoked : List (Str × Str),
      sequentialLoop job (pre ++ j :: post) invoked false = (invoked ++ (pre ++ [j]), true) := by
  induction pre with
  | nil =>
    intro invoked
    simp [sequentialLoop, hj]
  | cons x rest ih =>
    intro invoked
    have hx := hpre x (by simp)
    rw [List.cons_append]
    simp only [sequentialLoop, hx, Bool.not_true]
    rw [if_neg (by simp), ih (fun y hy => hpre y (by simp [hy]))]
    simp

/-! ## Lemmas on scratch build names -/

theorem digitChar_isDigit (d : Nat) (h : d < 10) : (Nat.digitChar d).isDigit = true := by
  interval_cases d <;> decide

theorem toDigits_six (n : Nat) (h1 : 100000 ≤ n) (h2 : n < 1000000) :
    Nat.toDigits 10 n =
      [Nat.digitChar (n / 10 / 10 / 10 / 10 / 10 % 10), Nat.digitChar (n / 10 / 10 / 10 / 10 % 10),
        Nat.digitChar (n / 10 / 10 / 10 % 10), Nat.digitChar (n / 10 / 10 % 10),
        Nat.digitChar (n / 10 % 10), Nat.digitChar (n % 10)] := by
  have hf : n + 1 = (n - 5) + 1 + 1 + 1 + 1 + 1 + 1 := by omega
  have a1 : n / 10 ≠ 0 := by omega
  have a2 : n / 10 / 10 ≠ 0 := by omega
  have a3 : n / 10 / 10 / 10 ≠ 0 := by omega
  have a4 : n / 10 / 10 / 10 / 10 ≠ 0 := by omega
  have a5 : n / 10 / 10 / 10 / 10 / 10 ≠ 0 := by omega
  have a6 : n / 10 / 10 / 10 / 10 / 10 / 10 = 0 := by omega
  rw [Nat.toDigits, hf]
  simp only [Nat.toDigitsCore, a1, a2, a3, a4, a5, a6, if_true, if_false]

/-! ## Lemmas on the repository lifecycle -/

theorem prepareIndyHosted_eq (server : Server) (IndyHostedTemplate : IndyHostedVars → Str)
    (sent : List HttpRequest) (indyURL buildName : Str) (buildMeta : BuildMetadata) :
    prepareIndyHosted server IndyHostedTemplate sent indyURL buildMeta.buildType buildName =
      (server sent (hostedPut IndyHostedTemplate indyURL buildName buildMeta),
        sent ++ [hostedPut IndyHostedTemplate indyURL buildName buildMeta]) := rfl

theorem prepareIndyGroup_eq (server : Server) (IndyGroupTemplate : IndyGroupVars → Str)
    (sent : List HttpRequest) (indyURL buildName : Str) (buildMeta : BuildMetadata) :
    prepareIndyGroup server IndyGroupTemplate sent indyURL buildName buildMeta =
      (server sent (groupPut IndyGroupTemplate indyURL buildName buildMeta),
        sent ++ [groupPut IndyGroupTemplate indyURL buildName buildMeta]) := rfl

theorem prepareIndyRepos_eq (server : Server) (IndyHostedTemplate : IndyHostedVars → Str)
    (IndyGroupTemplate : IndyGroupVars → Str) (sent : List HttpRequest)
    (indyURL buildName : Str) (buildMeta : BuildMetadata) :
    prepareIndyRepos server IndyHostedTemplate IndyGroupTemplate sent indyURL buildName
        buildMeta false =
      if server sent (hostedPut IndyHostedTemplate indyURL buildName buildMeta) = true then
        (server (sent ++ [hostedPut IndyHostedTemplate indyURL buildName buildMeta])
            (groupPut IndyGroupTemplate indyURL buildName buildMeta),
          sent ++ [hostedPut IndyHostedTemplate indyURL buildName buildMeta,
            groupPut IndyGroupTemplate indyURL buildName buildMeta])
      else (false, sent ++ [hostedPut IndyHostedTemplate indyURL buildName buildMeta]) := by
  unfold prepareIndyRepos
  rw [if_neg (by simp), prepareIndyHosted_eq]
  cases hh : server sent (hostedPut IndyHostedTemplate indyURL buildName buildMeta) with
  | false => simp
  | true =>
    simp only [Bool.not_true, if_true]
    rw [if_neg (by simp), prepareIndyGroup_eq]
    simp

theorem DeleteIndyTestRepos_eq (server : Server) (sent : List HttpRequest)
    (indyURL packageType buildName : Str) :
    DeleteIndyTestRepos server sent indyURL packageType buildName =
      if stringsHasPrefix buildName BUILD_TEST_ = true then
        sent ++ [groupDelete indyURL packageType buildName,
          hostedDelete indyURL packageType buildName]
      else sent := by
  unfold DeleteIndyTestRepos delAllowed
  cases h : stringsHasPrefix buildName BUILD_TEST_ with
  | false => simp
  | true =>
    simp only [if_true, Bool.not_true]
    rw [if_neg (by simp)]
    show (sent ++ [groupDelete indyURL packageType buildName]) ++
      [hostedDelete indyURL packageType buildName] = _
    simp

/-! ## Lemmas on the keys of a map -/

theorem GoMap.keys_insert (m : GoMap) (k : Str) (v : Str × Str) :
    (m.insert k v).map Prod.fst =
      if k ∈ m.map Prod.fst then m.map Prod.fst else m.map Prod.fst ++ [k] := by
  induction m with
  | nil => simp [GoMap.insert]
  | cons e rest ih =>
    obtain ⟨k', v'⟩ := e
    by_cases h : k' = k
    · subst h
      simp [GoMap.insert]
    · have h' : ¬ k = k' := fun hh => h hh.symm
      simp only [GoMap.insert, if_neg h, List.map_cons, ih, List.mem_cons, h', false_or]
      by_cases hin : k ∈ rest.map Prod.fst
      · simp [hin]
      · simp [hin]

theorem GoMap.keys_insert_nodup (m : GoMap) (k : Str) (v : Str × Str)
    (h : (m.map Prod.fst).Nodup) : ((m.insert k v).map Prod.fst).Nodup := by
  rw [GoMap.keys_insert]
  by_cases hin : k ∈ m.map Prod.fst
  · rw [if_pos hin]; exact h
  · rw [if_neg hin]
    exact List.nodup_append.mpr
      ⟨h, List.nodup_singleton k, by
        intro a ha hb
        simp only [List.mem_singleton] at hb
        exact hin (hb ▸ ha)⟩

theorem GoMap.mem_keys_insert (m : GoMap) (k p : Str) (v : Str × Str) :
    p ∈ (m.insert k v).map Prod.fst ↔ p ∈ m.map Prod.fst ∨ p = k := by
  rw [GoMap.keys_insert]
  by_cases hin : k ∈ m.map Prod.fst
  · rw [if_pos hin]
    constructor
    · exact Or.inl
    · rintro (h | h)
      · exact h
      · exact h ▸ hin
  · rw [if_neg hin]
    simp

/-- The keys the upload loop leaves: distinct, and those of the map it
started with together with the paths of the entries. -/
theorem uploadLoop_keys (storeKeyToPath : Str → Str)
    (originalIndy targetIndy newBuildId n : Str)
    (hn : sliceFrom newBuildId BUILD_TEST_.length = some n) (us : List TrackedContentEntry) :
    ∀ result : GoMap, (result.map Prod.fst).Nodup →
      ∃ m, uploadLoop storeKeyToPath originalIndy targetIndy newBuildId us result = some m ∧
        (m.map Prod.fst).Nodup ∧
        ∀ p, p ∈ m.map Prod.fst ↔
          p ∈ result.map Prod.fst ∨ p ∈ us.map TrackedContentEntry.Path := by
  induction us with
  | nil =>
    intro result h
    exact ⟨result, rfl, h, by simp⟩
  | cons u us ih =>
    intro result h
    simp only [uploadLoop, hn]
    obtain ⟨m, hm, hnd, hkeys⟩ := ih (result.insert u.Path
      (uploadUrls storeKeyToPath originalIndy targetIndy newBuildId n u))
      (GoMap.keys_insert_nodup _ _ _ h)
    refine ⟨m, hm, hnd, ?_⟩
    intro p
    rw [hkeys p, GoMap.mem_keys_insert]
    simp only [List.map_cons, List.mem_cons]
    tauto

/-! ## Lemmas on the verdict of the sequential loop and on the build type -/

theorem sequentialLoop_broken (job : Str → Str → Bool) (order : List (Str × Str)) :
    ∀ invoked : List (Str × Str),
      (sequentialLoop job order invoked false).2 = !(order.all (fun a => job a.1 a.2)) := by
  induction order with
  | nil => intro invoked; simp [sequentialLoop]
  | cons x rest ih =>
    intro invoked
    cases hx : job x.1 x.2 with
    | false => simp [sequentialLoop, hx]
    | true =>
      simp only [sequentialLoop, hx, Bool.not_true, List.all_cons, Bool.true_and]
      rw [if_neg (by simp)]
      exact ih _

theorem decideMeta_none_iff (buildType : Str) :
    decideMeta buildType = none ↔ buildType ≠ "maven".toList ∧ buildType ≠ "npm".toList := by
  unfold decideMeta
  by_cases h1 : buildType = TYPE_MVN
  · rw [if_pos h1]
    constructor
    · intro h; exact absurd h (by simp)
    · intro h; exact absurd h1 h.1
  · rw [if_neg h1]
    by_cases h2 : buildType = TYPE_NPM
    · rw [if_pos h2]
      constructor
      · intro h; exact absurd h (by simp)
      · intro h; exact absurd h2 h.2
    · rw [if_neg h2]
      exact ⟨fun _ => ⟨h1, h2⟩, fun _ => rfl⟩

/-! ## Lemmas on the metadata paths -/

theorem findAllLazy_mem (lit term : Str) (fuel : Nat) :
    ∀ (s m : Str), m ∈ findAllLazy lit term fuel s → ∃ body, m = lit ++ body ++ term := by
  induction fuel with
  | zero => intro s m h; simp [findAllLazy] at h
  | succ n ih =>
    intro s m h
    cases s with
    | nil => simp [findAllLazy] at h
    | cons c cs =>
      simp only [findAllLazy] at h
      split at h
      · split at h
        · next body rest _ =>
          simp only [List.mem_cons] at h
          rcases h with h | h
          · exact ⟨body, h⟩
          · exact ih _ _ h
        · exact ih _ _ h
      · exact ih _ _ h

theorem indexOfChar_append_singleton (c d : Char) (hd : d ≠ c) (x : Str) :
    ∀ i, indexOfChar c (x ++ [d]) = some i → i < x.length := by
  induction x with
  | nil =>
    intro i h
    simp [indexOfChar, hd] at h
  | cons y ys ih =>
    intro i h
    have h' : indexOfChar c (y :: (ys ++ [d])) = some i := h
    rw [indexOfChar] at h'
    by_cases hy : y = c
    · rw [if_pos hy] at h'
      simp only [Option.some.injEq] at h'
      subst h'
      simp
    · rw [if_neg hy] at h'
      cases hidx : indexOfChar c (ys ++ [d]) with
      | none => rw [hidx] at h'; simp at h'
      | some j =>
        rw [hidx] at h'
        simp only [Option.map_some', Option.some.injEq] at h'
        have := ih j hidx
        subst h'
        simp only [List.length_cons]
        omega

/-- The slice bounds of `getMavenMetadataPaths` are valid on every text that
ends with a closing brace. -/
theorem mavenBlockGavs_isSome (x : Str) : (mavenBlockGavs (x ++ ['}'])).isSome = true := by
  unfold mavenBlockGavs sliceBetween stringsIndex
  cases hidx : indexOfChar '{' (x ++ ['}']) with
  | none =>
    simp only []
    rw [if_pos]
    · rfl
    · simp only [List.length_append, List.length_singleton]
      omega
  | some i =>
    have hi := indexOfChar_append_singleton '{' '}' (by decide) x i hidx
    simp only []
    rw [if_pos]
    · rfl
    · simp only [List.length_append, List.length_singleton]
      omega

theorem mavenBlocks_gavs (alignLog m : Str) (h : m ∈ mavenBlocks alignLog) :
    ∃ gavs, mavenBlockGavs m = some gavs := by
  obtain ⟨body, rfl⟩ := findAllLazy_mem _ _ _ _ _ h
  have := mavenBlockGavs_isSome ("REST Client returned".toList ++ body)
  exact Option.isSome_iff_exists.mp this

theorem stringsSplit_ne_nil (sep : Char) (s : Str) : stringsSplit sep s ≠ [] := by
  cases s with
  | nil => simp [stringsSplit]
  | cons c cs =>
    unfold stringsSplit
    by_cases hc : c = sep
    · simp [hc]
    · rw [if_neg hc]
      cases stringsSplit sep cs <;> simp

theorem stringsSplit_of_not_mem (sep : Char) (s : Str) (h : sep ∉ s) :
    stringsSplit sep s = [s] := by
  induction s with
  | nil => rfl
  | cons c cs ih =>
    have hc : c ≠ sep := fun hh => h (by simp [hh])
    have hcs : sep ∉ cs := fun hh => h (by simp [hh])
    rw [stringsSplit, if_neg hc, ih hcs]

theorem stringsSplit_of_mem (sep : Char) (s : Str) (h : sep ∈ s) :
    ∃ s0 s1 rest, stringsSplit sep s = s0 :: s1 :: rest := by
  induction s with
  | nil => simp at h
  | cons c cs ih =>
    by_cases hc : c = sep
    · rw [stringsSplit, if_pos hc]
      obtain ⟨x, xs, hx⟩ := List.exists_cons_of_ne_nil (stringsSplit_ne_nil sep cs)
      exact ⟨[], x, xs, by rw [hx]⟩
    · have hcs : sep ∈ cs := by
        rcases List.mem_cons.mp h with hh | hh
        · exact absurd hh.symm hc
        · exact hh
      obtain ⟨s0, s1, rest, hs⟩ := ih hcs
      rw [stringsSplit, if_neg hc, hs]
      exact ⟨c :: s0, s1, rest, rfl⟩

theorem mavenItemPath_eq (gav : Str) :
    mavenItemPath gav = if ':' ∈ gav then some (mavenPathOfParts gav) else none := by
  by_cases h : ':' ∈ gav
  · rw [if_pos h]
    obtain ⟨s0, s1, rest, hs⟩ := stringsSplit_of_mem ':' gav h
    simp [mavenItemPath, mavenPathOfParts, hs]
  · rw [if_neg h]
    simp [mavenItemPath, stringsSplit_of_not_mem ':' gav h]

theorem mavenItemsLoop_eq (items : List Str) :
    ∀ paths : List Str,
      mavenItemsLoop items paths =
        if ∀ gav ∈ items, ':' ∈ gav then some (paths ++ items.map mavenPathOfParts)
        else none := by
  induction items with
  | nil => intro paths; simp [mavenItemsLoop]
  | cons gav rest ih =>
    intro paths
    rw [mavenItemsLoop, mavenItemPath_eq]
    by_cases h : ':' ∈ gav
    · rw [if_pos h]
      simp only []
      rw [ih]
      by_cases hr : ∀ g ∈ rest, ':' ∈ g
      · rw [if_pos hr, if_pos (by
          intro g hg
          rcases List.mem_cons.mp hg with hh | hh
          · exact hh ▸ h
          · exact hr g hh)]
        simp
      · rw [if_neg hr, if_neg (fun hall => hr (fun g hg => hall g (by simp [hg])))]
    · rw [if_neg h]
      simp only []
      rw [if_neg (fun hall => h (hall gav (by simp)))]

theorem mavenBlocksLoop_eq (blocks : List Str)
    (hb : ∀ m ∈ blocks, ∃ gavs, mavenBlockGavs m = some gavs) :
    ∀ paths : List Str,
      mavenBlocksLoop blocks paths =
        if ∀ gav ∈ (blocks.map mavenBlockItems).flatten, ':' ∈ gav then
          some (paths ++ ((blocks.map mavenBlockItems).flatten).map mavenPathOfParts)
        else none := by
  induction blocks with
  | nil => intro paths; simp [mavenBlocksLoop]
  | cons m rest ih =>
    intro paths
    obtain ⟨gavs, hg⟩ := hb m (by simp)
    have ihr := ih (fun m' hm' => hb m' (by simp [hm']))
    have hflat : ((m :: rest).map mavenBlockItems).flatten =
        mavenBlockItems m ++ (rest.map mavenBlockItems).flatten := by simp
    rw [mavenBlocksLoop, hg, hflat]
    by_cases he : gavs = []
    · have hitems : mavenBlockItems m = [] := by simp [mavenBlockItems, hg, he]
      rw [hitems]
      simp only [he, if_true, List.nil_append]
      exact ihr paths
    · have hitems : mavenBlockItems m = stringsSplit ',' gavs := by
        simp [mavenBlockItems, hg, he]
      rw [hitems]
      simp only [he, if_false]
      rw [mavenItemsLoop_eq]
      by_cases h1 : ∀ gav ∈ stringsSplit ',' gavs, ':' ∈ gav
      · rw [if_pos h1]
        simp only []
        rw [ihr]
        by_cases h2 : ∀ gav ∈ (rest.map mavenBlockItems).flatten, ':' ∈ gav
        · rw [if_pos h2, if_pos (by
            intro g hgm
            rcases List.mem_append.mp hgm with hh | hh
            · exact h1 g hh
            · exact h2 g hh)]
          simp
        · rw [if_neg h2, if_neg (fun hall => h2 (fun g hgm =>
            hall g (List.mem_append.mpr (Or.inr hgm))))]
      · rw [if_neg h1]
        simp only []
        rw [if_neg (fun hall => h1 (fun g hgm => hall g (List.mem_append.mpr (Or.inl hgm))))]

/-! ## Claims -/

/-- C1: for every target base URL, scratch build name and tracking record,
`prepareDownloadEntriesByFolo` maps the path of every download entry to the
pair whose first element is the empty string and whose second element is
`normIndyURL target ++ "api/folo/track/" ++ b ++ "/maven/group/" ++ b ++ path`. -/
theorem prepareDownloadEntriesByFolo_entry (target b : Str) (foloRecord : TrackedContent)
    (down : TrackedContentEntry) (hmem : down ∈ foloRecord.Downloads) :
    (prepareDownloadEntriesByFolo target b foloRecord).lookup down.Path =
      some ([], normIndyURL target ++ "api/folo/track/".toList ++ b ++ "/maven/group/".toList
        ++ b ++ down.Path) := by
  unfold prepareDownloadEntriesByFolo
  simp only []
  rw [downloadLoop_lookup]
  have : down.Path ∈ foloRecord.Downloads.map TrackedContentEntry.Path :=
    List.mem_map_of_mem _ hmem
  simp [this, foloTrackUrl]

/-- C1 on the scenario of the specification: path `/foo/1.0/foo-1.0.jar`,
target `http://x` and name `build-test-912345`. -/
theorem prepareDownloadEntriesByFolo_entry_witness :
    (prepareDownloadEntriesByFolo "http://x".toList "build-test-912345".toList
        scenarioRecord).lookup
      "/foo/1.0/foo-1.0.jar".toList =
      some ("".toList,
        "http://x/api/folo/track/build-test-912345/maven/group/build-test-912345/foo/1.0/foo-1.0.jar".toList) := by
  have h := prepareDownloadEntriesByFolo_entry "http://x".toList "build-test-912345".toList
    scenarioRecord scenarioDownload (by simp [scenarioRecord])
  have hn : normIndyURL "http://x".toList = "http://x/".toList := by decide
  rw [hn] at h
  exact h

/-- C2, the code at the upload entry of the scenario (path
`/foo/1.0-redhat-3/foo.pom`, store key `maven:hosted:orig`, target `http://x`,
name `build-test-912345`): the target URL that `prepareUploadEntriesByFolo`
stores is built from the whole `api/content/...` path of the source, glued to
the build name without a slash, and it differs from the URL built the same
way as a download URL from the version-rewritten path of the entry. -/
theorem prepareUploadEntriesByFolo_target_scenario :
    (prepareUploadEntriesByFolo StoreKeyToPath "http://orig".toList "http://x".toList
        "build-test-912345".toList scenarioRecord).bind
      (fun m => m.lookup "/foo/1.0-redhat-3/foo.pom".toList) =
      some ("http://orig/api/content/maven/hosted/orig/foo/1.0-redhat-3/foo.pom".toList,
        "http://x/api/folo/track/build-test-912345/maven/group/build-test-912345api/content/maven/hosted/orig/foo/1.0-redhat-912345/foo.pom".toList) ∧
    "http://x/api/folo/track/build-test-912345/maven/group/build-test-912345api/content/maven/hosted/orig/foo/1.0-redhat-912345/foo.pom".toList ≠
      normIndyURL "http://x".toList ++ "api/folo/track/".toList ++ "build-test-912345".toList
        ++ "/maven/group/".toList ++ "build-test-912345".toList
        ++ alterUploadPath "/foo/1.0-redhat-3/foo.pom".toList "912345".toList := by
  constructor
  · decide
  · decide

/-- C3, the code on a run of package type `npm`: the job mappings `DoRun`
builds for an `npm` run are those it builds for a `maven` run, and on the
scenario of the specification the download URL of the `npm` run carries the
segment `maven` after the build name. -/
theorem DoRunMappings_npm_scenario :
    (∀ (storeKeyToPath : Str → Str) (originalIndy targetIndy : Str)
        (foloTrackContent : TrackedContent) (newBuildName : Str),
      DoRunMappings storeKeyToPath originalIndy targetIndy TYPE_NPM foloTrackContent newBuildName =
        DoRunMappings storeKeyToPath originalIndy targetIndy TYPE_MVN foloTrackContent
          newBuildName) ∧
    (DoRunMappings StoreKeyToPath "http://orig".toList "http://x".toList "npm".toList
        scenarioRecord "build-test-912345".toList).bind
      (fun m => m.1.lookup "/foo/1.0/foo-1.0.jar".toList) =
      some ("".toList,
        "http://x/api/folo/track/build-test-912345/maven/group/build-test-912345/foo/1.0/foo-1.0.jar".toList) := by
  constructor
  · intros
    simp [DoRunMappings, decideMeta, TYPE_NPM, TYPE_MVN]
  · decide

/-- C4: for every upload entry whose store path `s` (the path form of its
store key) is a clean relative path and whose path `p` is a clean path below
the root, the source URL the loop of `prepareUploadEntriesByFolo` builds for
the entry is `normIndyURL originalIndy ++ "api/content/" ++ s ++ p`, whatever
the target and the build number are (it is built from the original server and
is not version-rewritten); and when no later upload entry has the same path,
that URL is the source stored under `p` in the mapping returned, for every
build name that is at least as long as the prefix `build-test-`. -/
theorem prepareUploadEntriesByFolo_source (storeKeyToPath : Str → Str)
    (originalIndy targetIndy b : Str) (foloRecord : TrackedContent)
    (pre post : List TrackedContentEntry) (up : TrackedContentEntry)
    (hU : foloRecord.Uploads = pre ++ up :: post)
    (hb : BUILD_TEST_.length ≤ b.length)
    (hs : isCleanRel (storeKeyToPath up.StoreKey) = true) (hp : isCleanAbs up.Path = true) :
    (∀ n : Str, (uploadUrls storeKeyToPath (normIndyURL originalIndy) (normIndyURL targetIndy)
        b n up).1 =
      normIndyURL originalIndy ++ "api/content/".toList ++ storeKeyToPath up.StoreKey ++ up.Path) ∧
    ((∀ e ∈ post, e.Path ≠ up.Path) →
      ∃ (m : GoMap) (targUpUrl : Str),
        prepareUploadEntriesByFolo storeKeyToPath originalIndy targetIndy b foloRecord = some m ∧
        m.lookup up.Path =
          some (normIndyURL originalIndy ++ "api/content/".toList ++ storeKeyToPath up.StoreKey
            ++ up.Path, targUpUrl)) := by
  have hsrc : ∀ n : Str, (uploadUrls storeKeyToPath (normIndyURL originalIndy)
      (normIndyURL targetIndy) b n up).1 =
      normIndyURL originalIndy ++ "api/content/".toList ++ storeKeyToPath up.StoreKey ++ up.Path := by
    intro n
    simp only [uploadUrls]
    rw [pathJoin_clean _ _ hs hp]
    simp
  refine ⟨hsrc, fun hlast => ?_⟩
  obtain ⟨m, hm, hl⟩ := uploadLoop_lookup_last storeKeyToPath (normIndyURL originalIndy)
    (normIndyURL targetIndy) b _ (sliceFrom_of_le b _ hb) up post hlast pre []
  refine ⟨m, (uploadUrls storeKeyToPath (normIndyURL originalIndy) (normIndyURL targetIndy)
    b (b.drop BUILD_TEST_.length) up).2, ?_, ?_⟩
  · simp only [prepareUploadEntriesByFolo, hU]
    exact hm
  · rw [hl, ← hsrc (b.drop BUILD_TEST_.length)]

/-- C4 on the upload entry of the scenario, with the original server
`orig.example`: the source URL keeps `redhat-3`. -/
theorem prepareUploadEntriesByFolo_source_witness :
    ∃ (m : GoMap) (targUpUrl : Str),
      prepareUploadEntriesByFolo StoreKeyToPath "orig.example".toList "http://x".toList
        "build-test-912345".toList scenarioRecord = some m ∧
      m.lookup "/foo/1.0-redhat-3/foo.pom".toList =
        some ("http://orig.example/api/content/maven/hosted/orig/foo/1.0-redhat-3/foo.pom".toList,
          targUpUrl) := by
  have h := (prepareUploadEntriesByFolo_source StoreKeyToPath "orig.example".toList
    "http://x".toList "build-test-912345".toList scenarioRecord [] [] scenarioUpload rfl
    (by decide) (by decide) (by decide)).2 (by simp)
  have hn : normIndyURL "orig.example".toList = "http://orig.example/".toList := by decide
  rw [hn] at h
  exact h

/-- C5: for every path `a ++ "redhat-" ++ d ++ c` where `a` contains no
version token, `d` is a non-empty run of decimal digits and `c` does not
start with a digit, and for every digits-only number `n`,
`alterUploadPath` returns `a ++ "redhat-" ++ n ++ alterUploadPath c n`: the
token is replaced by `redhat-n`, the text before it is kept, and the text
after it is rewritten in the same way. -/
theorem alterUploadPath_token (a d c n : Str) (ha : ¬ HasVersionToken a) (hd : d ≠ [])
    (hdd : digitsOnly d) (hc : noLeadingDigit c) (hn : digitsOnly n) :
    alterUploadPath (a ++ "redhat-".toList ++ d ++ c) n =
      a ++ "redhat-".toList ++ n ++ alterUploadPath c n := by
  unfold alterUploadPath
  have hy : a ++ "redhat-".toList ++ d ++ c = a ++ ("redhat-".toList ++ d ++ c) := by simp
  rw [hy, replaceAll_prefix]
  · rw [replaceAll_match _ _ d c (matchVersionAt_token d c hd hdd hc), expand_digits _ _ n hn]
    simp
  · intro a₁ a₂ haa hne
    subst haa
    have := matchVersionAt_before_token a₂ (d ++ c) hne (not_hasVersionToken_suffix a₁ a₂ ha)
    simpa using this

/-- C5 on the scenario of the specification: `/foo/1.0-redhat-3/foo.pom` with
the number `912345` gives `/foo/1.0-redhat-912345/foo.pom`. -/
theorem alterUploadPath_token_witness :
    alterUploadPath "/foo/1.0-redhat-3/foo.pom".toList "912345".toList =
      "/foo/1.0-redhat-912345/foo.pom".toList := by
  have h := alterUploadPath_token "/foo/1.0-".toList "3".toList "/foo.pom".toList "912345".toList
    (no_token_of_B _ (by decide)) (by decide) (by decide) (by decide) (by decide)
  have h2 : alterUploadPath "/foo.pom".toList "912345".toList = "/foo.pom".toList :=
    replaceAll_no_token _ _ (no_token_of_B _ (by decide))
  rw [h2] at h
  exact h

/-- C6: for every path that contains no `redhat-` followed by a decimal digit
and for every new build number (digits or not), `alterUploadPath`, which is a
total function, returns the path unchanged. -/
theorem alterUploadPath_no_token (path n : Str) (h : ¬ HasVersionToken path) :
    alterUploadPath path n = path :=
  replaceAll_no_token _ path h

/-- C6 on the download path of the scenario. -/
theorem alterUploadPath_no_token_witness :
    ¬ HasVersionToken "/foo/1.0/foo-1.0.jar".toList ∧
      alterUploadPath "/foo/1.0/foo-1.0.jar".toList "912345".toList =
        "/foo/1.0/foo-1.0.jar".toList :=
  ⟨no_token_of_B _ (by decide),
    alterUploadPath_no_token _ _ (no_token_of_B _ (by decide))⟩

/-- C7: the version rewrite is idempotent for a fixed number: for every path,
with or without a version token, and every digits-only number `n` (the empty
one included), rewriting the rewritten path again with `n` changes
nothing. -/
theorem alterUploadPath_idempotent (p n : Str) (hn : digitsOnly n) :
    alterUploadPath (alterUploadPath p n) n = alterUploadPath p n :=
  replaceAll_idem n hn p.length p (le_refl _)

/-- C7 on the upload path of the scenario. -/
theorem alterUploadPath_idempotent_witness :
    digitsOnly "912345".toList ∧
      alterUploadPath (alterUploadPath "/foo/1.0-redhat-3/foo.pom".toList "912345".toList)
          "912345".toList =
        alterUploadPath "/foo/1.0-redhat-3/foo.pom".toList "912345".toList :=
  ⟨by decide, alterUploadPath_idempotent _ _ (by decide)⟩

/-- C8: for every job mapping (the empty one included), every worker count of
at least one, every job function and every schedule of the goroutines, hence
every order in which the workers record their outcomes: a run of
`concurrentRun` that has returned has returned true if and only if the job
function is true on every pair of the mapping; every run can be continued
until it returns, and no run takes more than
`5 * len(artifacts) + numWorkers + 2` steps, so `concurrentRun` returns
under every schedule. -/
theorem concurrentRun_result (numWorkers : Nat) (artifacts : GoMap) (job : Str → Str → Bool)
    (order : List (Str × Str)) (schedule : List Action) (s : RunState)
    (hw : 1 ≤ numWorkers) (horder : order.Perm (artifacts.map Prod.snd))
    (hrun : concurrentRun numWorkers order job schedule = some s) :
    (∀ r, s.returned = some r → (r = true ↔ ∀ e ∈ artifacts, job e.2.1 e.2.2 = true)) ∧
    (∃ rest s', concurrentRun numWorkers order job (schedule ++ rest) = some s' ∧
      s'.returned.isSome = true) ∧
    schedule.length ≤ 5 * artifacts.length + numWorkers + 2 := by
  have hinv := concurrentRun_inv numWorkers order job schedule s hrun
  refine ⟨?_, ?_, ?_⟩
  · intro r hr
    obtain ⟨-, hres⟩ := run_returned job order numWorkers s hinv hw r hr
    rw [hres, List.all_eq_true]
    constructor
    · intro h e he
      exact h e.2 (horder.mem_iff.mpr (List.mem_map_of_mem _ he))
    · intro h a ha
      obtain ⟨e, he, rfl⟩ := List.mem_map.mp (horder.mem_iff.mp ha)
      exact h e he
  · obtain ⟨rest, s', hex, hret⟩ := run_completes (numWorkers * 5) job order numWorkers hw
      (by omega) (stepsLeft s) s (le_refl _) hinv
    exact ⟨rest, s', by
      unfold concurrentRun at hrun ⊢
      rw [exec_append, hrun]
      exact hex, hret⟩
  · have := concurrentRun_length numWorkers order job schedule s hrun
    have hl : order.length = artifacts.length := by
      rw [horder.length_eq, List.length_map]
    omega

/-- C8 on the scenario: two workers, three transfers of which the second
fails, the failure recorded first; the run returns false. -/
theorem concurrentRun_result_witness :
    concurrentRun 2 (scenarioJobs.map Prod.snd) scenarioJob scenarioSchedule =
      some scenarioFinal ∧
    (∀ r, scenarioFinal.returned = some r →
      (r = true ↔ ∀ e ∈ scenarioJobs, scenarioJob e.2.1 e.2.2 = true)) :=
  ⟨by decide,
    (concurrentRun_result 2 scenarioJobs scenarioJob (scenarioJobs.map Prod.snd)
      scenarioSchedule scenarioFinal (by decide) (List.Perm.refl _) (by decide)).1⟩

/-- C10: in the sequential fallback of `DoRun` (worker count at most one), for
every order in which the mapping is iterated: when the jobs of `pre` succeed
and the next job `j` fails, the calls made are exactly `pre` followed by `j`,
in that order, none of the later jobs is called, and the phase is broken;
when no job fails, all jobs are called once each, in order, and the phase is
not broken. -/
theorem DoRunPhase_sequential (processNum : Int) (job : Str → Str → Bool)
    (schedule : List Action) (hp : processNum ≤ 1) :
    (∀ (pre post : List (Str × Str)) (j : Str × Str),
      (∀ x ∈ pre, job x.1 x.2 = true) → job j.1 j.2 = false →
        DoRunPhase processNum job (pre ++ j :: post) schedule = some (pre ++ [j], true)) ∧
    (∀ order : List (Str × Str), (∀ x ∈ order, job x.1 x.2 = true) →
      DoRunPhase processNum job order schedule = some (order, false)) := by
  have hnot : ¬ 1 < processNum := by omega
  constructor
  · intro pre post j hpre hj
    unfold DoRunPhase
    rw [if_pos (by simp), if_neg hnot, sequentialLoop_fail job pre post j hpre hj]
    simp
  · intro order hall
    unfold DoRunPhase
    by_cases hlen : 0 < order.length
    · rw [if_pos hlen, if_neg hnot, sequentialLoop_ok job order hall]
      simp
    · rw [if_neg hlen]
      have : order = [] := List.length_eq_zero.mp (by omega)
      rw [this]

/-- C10 on the scenario: one worker, three transfers of which the second
fails; the third is not attempted. -/
theorem DoRunPhase_sequential_witness :
    DoRunPhase 1 scenarioJob (scenarioJobs.map Prod.snd) [] =
      some ([("".toList, "http://x/a".toList), ("".toList, "http://x/bad".toList)], true) :=
  (DoRunPhase_sequential 1 scenarioJob [] (by decide)).1
    [("".toList, "http://x/a".toList)] [("".toList, "http://x/c".toList)]
    ("".toList, "http://x/bad".toList) (by decide) (by decide)

/-- C11: for every server URL, package type and repository name,
`DeleteIndyTestRepos` sends no request at all when the name does not start
with `build-test-`, and exactly two DELETE requests when it does: first the
one for the group, then the one for the hosted repository with
`deleteContent=true`, whatever the server answers to the first. -/
theorem DeleteIndyTestRepos_requests (server : Server) (sent : List HttpRequest)
    (indyURL packageType buildName : Str) :
    (stringsHasPrefix buildName BUILD_TEST_ = false →
      DeleteIndyTestRepos server sent indyURL packageType buildName = sent) ∧
    (stringsHasPrefix buildName BUILD_TEST_ = true →
      DeleteIndyTestRepos server sent indyURL packageType buildName =
        sent ++ [groupDelete indyURL packageType buildName,
          hostedDelete indyURL packageType buildName]) := by
  rw [DeleteIndyTestRepos_eq]
  constructor
  · intro h
    rw [h]
    simp
  · intro h
    rw [h]
    simp

/-- C11 on two names: the scratch name of the scenario is deleted with two
requests, the repository `pnc-builds` is left alone. -/
theorem DeleteIndyTestRepos_requests_witness :
    DeleteIndyTestRepos scenarioServer [] "http://x".toList "maven".toList
        "pnc-builds".toList = [] ∧
    DeleteIndyTestRepos scenarioServer [] "http://x".toList "maven".toList
        "build-test-912345".toList =
      [{ method := HttpMethod.DELETE,
         url := "http://x/api/admin/stores/maven/group/build-test-912345".toList, body := [] },
       { method := HttpMethod.DELETE,
         url := "http://x/api/admin/stores/maven/hosted/build-test-912345?deleteContent=true".toList,
         body := [] }] :=
  ⟨(DeleteIndyTestRepos_requests scenarioServer [] "http://x".toList "maven".toList
      "pnc-builds".toList).1 (by decide),
    (DeleteIndyTestRepos_requests scenarioServer [] "http://x".toList "maven".toList
      "build-test-912345".toList).2 (by decide)⟩

/-- C12: for every value `r < 99999` that `rand.Intn(max-min)` returns,
`generateRandomBuildName` returns `build-test-` followed by the decimal
numeral of `900000 + r`; the numeral has exactly 6 digits, starts with `9`
and its value lies in `900000..999999`; the name starts with the test prefix
and the slice after the prefix is that digits-only numeral. -/
theorem generateRandomBuildName_form (Intn : Nat → Nat) (h : Intn 99999 < 99999) :
    generateRandomBuildName Intn = BUILD_TEST_ ++ Nat.toDigits 10 (900000 + Intn 99999) ∧
    (Nat.toDigits 10 (900000 + Intn 99999)).length = 6 ∧
    (Nat.toDigits 10 (900000 + Intn 99999)).head? = some '9' ∧
    digitsOnly (Nat.toDigits 10 (900000 + Intn 99999)) ∧
    900000 ≤ 900000 + Intn 99999 ∧ 900000 + Intn 99999 ≤ 999999 ∧
    stringsHasPrefix (generateRandomBuildName Intn) BUILD_TEST_ = true ∧
    sliceFrom (generateRandomBuildName Intn) BUILD_TEST_.length =
      some (Nat.toDigits 10 (900000 + Intn 99999)) := by
  have hname : generateRandomBuildName Intn =
      BUILD_TEST_ ++ Nat.toDigits 10 (900000 + Intn 99999) := by
    simp only [generateRandomBuildName]
    rw [show 999999 - 900000 = 99999 from rfl, Nat.add_comm]
  have hsix := toDigits_six (900000 + Intn 99999) (by omega) (by omega)
  have h9 : (900000 + Intn 99999) / 10 / 10 / 10 / 10 / 10 % 10 = 9 := by omega
  refine ⟨hname, ?_, ?_, ?_, by omega, by omega, ?_, ?_⟩
  · rw [hsix]; rfl
  · rw [hsix, h9]; rfl
  · rw [hsix]
    intro c hc
    simp only [List.mem_cons, List.mem_singleton, List.not_mem_nil, or_false] at hc
    rcases hc with hc | hc | hc | hc | hc | hc <;>
      (subst hc; exact digitChar_isDigit _ (Nat.mod_lt _ (by decide)))
  · rw [hname]
    simp only [stringsHasPrefix, List.isPrefixOf_iff_prefix]
    exact List.prefix_append _ _
  · rw [hname]
    simp [sliceFrom]

/-- C12 on the draw `12345`: the name is `build-test-912345`. -/
theorem generateRandomBuildName_form_witness :
    generateRandomBuildName (fun _ => 12345) = "build-test-912345".toList ∧
    sliceFrom (generateRandomBuildName (fun _ => 12345)) BUILD_TEST_.length =
      some "912345".toList := by
  have h := generateRandomBuildName_form (fun _ => 12345) (by decide)
  exact ⟨h.1, h.2.2.2.2.2.2.2⟩

/-- C13: with `dryRun` false, `prepareIndyRepos` returns true if and only if
the PUT of the hosted repository and then the PUT of the group repository
both succeed; when the PUT of the hosted repository fails it returns false
and that PUT is the only request sent; otherwise the requests sent are the
PUT of the hosted repository followed by the PUT of the group repository. -/
theorem prepareIndyRepos_result (server : Server) (IndyHostedTemplate : IndyHostedVars → Str)
    (IndyGroupTemplate : IndyGroupVars → Str) (sent : List HttpRequest)
    (indyURL buildName : Str) (buildMeta : BuildMetadata) :
    ((prepareIndyRepos server IndyHostedTemplate IndyGroupTemplate sent indyURL buildName
        buildMeta false).1 = true ↔
      server sent (hostedPut IndyHostedTemplate indyURL buildName buildMeta) = true ∧
      server (sent ++ [hostedPut IndyHostedTemplate indyURL buildName buildMeta])
        (groupPut IndyGroupTemplate indyURL buildName buildMeta) = true) ∧
    (server sent (hostedPut IndyHostedTemplate indyURL buildName buildMeta) = false →
      prepareIndyRepos server IndyHostedTemplate IndyGroupTemplate sent indyURL buildName
        buildMeta false =
      (false, sent ++ [hostedPut IndyHostedTemplate indyURL buildName buildMeta])) ∧
    (server sent (hostedPut IndyHostedTemplate indyURL buildName buildMeta) = true →
      (prepareIndyRepos server IndyHostedTemplate IndyGroupTemplate sent indyURL buildName
        buildMeta false).2 =
      sent ++ [hostedPut IndyHostedTemplate indyURL buildName buildMeta,
        groupPut IndyGroupTemplate indyURL buildName buildMeta]) := by
  rw [prepareIndyRepos_eq]
  cases hh : server sent (hostedPut IndyHostedTemplate indyURL buildName buildMeta) with
  | false => simp
  | true => simp

/-- C13 on a server that refuses the hosted repository: false is returned and
the only request is the PUT of the hosted repository. -/
theorem prepareIndyRepos_result_witness :
    prepareIndyRepos scenarioServer scenarioHostedTemplate scenarioGroupTemplate []
        "http://x".toList "build-test-912345".toList scenarioMeta false =
      (false,
        [{ method := HttpMethod.PUT,
           url := "http://x/api/admin/stores/maven/hosted/build-test-912345".toList,
           body := "hosted build-test-912345".toList }]) :=
  (prepareIndyRepos_result scenarioServer scenarioHostedTemplate scenarioGroupTemplate []
    "http://x".toList "build-test-912345".toList scenarioMeta).2.1 (by decide)

/-- C14: with `dryRun` true, for every server, server URL, build name and
build metadata, `prepareIndyRepos` returns true and sends no request. -/
theorem prepareIndyRepos_dryRun (server : Server) (IndyHostedTemplate : IndyHostedVars → Str)
    (IndyGroupTemplate : IndyGroupVars → Str) (sent : List HttpRequest)
    (indyURL buildName : Str) (buildMeta : BuildMetadata) :
    prepareIndyRepos server IndyHostedTemplate IndyGroupTemplate sent indyURL buildName
      buildMeta true = (true, sent) := by
  simp [prepareIndyRepos]

/-- C15: for every tracking record and every ASCII build name at least as long
as the prefix `build-test-` (such as the names `generateRandomBuildName`
returns), the mapping `prepareUploadEntriesByFolo` returns has exactly one
key per distinct upload path (its keys are distinct and are the paths of the
upload entries), and the value under a path is the pair built from the last
upload entry with that path, whatever entries with the same path came before
it. On an ASCII name the slice `newBuildId[len(BUILD_TEST_):]` of the code,
which counts bytes, is the text after the first eleven characters. -/
theorem prepareUploadEntriesByFolo_keys (storeKeyToPath : Str → Str)
    (originalIndy targetIndy b : Str) (foloRecord : TrackedContent)
    (hb : BUILD_TEST_.length ≤ b.length) (hascii : isAscii b) :
    ∃ m : GoMap,
      prepareUploadEntriesByFolo storeKeyToPath originalIndy targetIndy b foloRecord = some m ∧
      (m.map Prod.fst).Nodup ∧
      (∀ p, p ∈ m.map Prod.fst ↔ p ∈ foloRecord.Uploads.map TrackedContentEntry.Path) ∧
      (∀ (pre post : List TrackedContentEntry) (up : TrackedContentEntry),
        foloRecord.Uploads = pre ++ up :: post → (∀ e ∈ post, e.Path ≠ up.Path) →
          m.lookup up.Path =
            some (uploadUrls storeKeyToPath (normIndyURL originalIndy) (normIndyURL targetIndy)
              b (b.drop BUILD_TEST_.length) up)) := by
  have _ := hascii
  have hn := sliceFrom_of_le b _ hb
  obtain ⟨m, hm, hnd, hkeys⟩ := uploadLoop_keys storeKeyToPath (normIndyURL originalIndy)
    (normIndyURL targetIndy) b _ hn foloRecord.Uploads [] (by simp)
  refine ⟨m, hm, hnd, ?_, ?_⟩
  · intro p
    rw [hkeys p]
    simp
  · intro pre post up hU hlast
    obtain ⟨m', hm', hl⟩ := uploadLoop_lookup_last storeKeyToPath (normIndyURL originalIndy)
      (normIndyURL targetIndy) b _ hn up post hlast pre []
    rw [← hU] at hm'
    have : m' = m := by
      have h2 : some m' = some m := hm'.symm.trans hm
      exact Option.some.inj h2
    rw [← this]
    exact hl

/-- C15 on a record with two uploads of the same path from different stores:
one key, and the source under it is the one of the second entry. -/
theorem prepareUploadEntriesByFolo_keys_witness :
    ∃ m : GoMap,
      prepareUploadEntriesByFolo StoreKeyToPath "http://orig".toList "http://x".toList
        "build-test-912345".toList scenarioTwoUploads = some m ∧
      m.map Prod.fst = ["/foo/1.0-redhat-3/foo.pom".toList] ∧
      (m.lookup "/foo/1.0-redhat-3/foo.pom".toList).map Prod.fst =
        some "http://orig/api/content/maven/hosted/other/foo/1.0-redhat-3/foo.pom".toList := by
  obtain ⟨m, hm, -, -, -⟩ := prepareUploadEntriesByFolo_keys StoreKeyToPath "http://orig".toList
    "http://x".toList "build-test-912345".toList scenarioTwoUploads (by decide) (by decide)
  refine ⟨m, hm, ?_, ?_⟩
  · have hm' : prepareUploadEntriesByFolo StoreKeyToPath "http://orig".toList "http://x".toList
        "build-test-912345".toList scenarioTwoUploads = some scenarioTwoUploadsMap := by decide
    have : m = scenarioTwoUploadsMap := Option.some.inj (hm.symm.trans hm')
    rw [this]
    decide
  · have hm' : prepareUploadEntriesByFolo StoreKeyToPath "http://orig".toList "http://x".toList
        "build-test-912345".toList scenarioTwoUploads = some scenarioTwoUploadsMap := by decide
    have : m = scenarioTwoUploadsMap := Option.some.inj (hm.symm.trans hm')
    rw [this]
    decide

/-- C16: for every job mapping, every job function, every order in which the
mapping is iterated and every worker count of at least one: `concurrentRun`
has runs that return, and the value any run returns is the success of the
sequential loop of `DoRun` on the same mapping (the negation of its
`broken`). -/
theorem sequentialLoop_agrees_with_concurrentRun (numWorkers : Nat) (artifacts : GoMap)
    (job : Str → Str → Bool) (order₁ order₂ : List (Str × Str))
    (hw : 1 ≤ numWorkers) (h₁ : order₁.Perm (artifacts.map Prod.snd))
    (h₂ : order₂.Perm (artifacts.map Prod.snd)) :
    (∃ schedule s r, concurrentRun numWorkers order₂ job schedule = some s ∧
      s.returned = some r) ∧
    (∀ schedule s r, concurrentRun numWorkers order₂ job schedule = some s →
      s.returned = some r → (!(sequentialLoop job order₁ [] false).2) = r) := by
  constructor
  · obtain ⟨rest, s', hex, hret⟩ := run_completes (numWorkers * 5) job order₂ numWorkers hw
      (by omega) _ (concurrentRunInit numWorkers order₂) (le_refl _)
      (runInv_init job numWorkers order₂)
    obtain ⟨r, hr⟩ := Option.isSome_iff_exists.mp hret
    exact ⟨rest, s', r, hex, hr⟩
  · intro schedule s r hrun hr
    have hinv := concurrentRun_inv numWorkers order₂ job schedule s hrun
    obtain ⟨-, hres⟩ := run_returned job order₂ numWorkers s hinv hw r hr
    rw [sequentialLoop_broken, Bool.not_not, hres]
    have hp : order₁.Perm order₂ := h₁.trans h₂.symm
    rw [Bool.eq_iff_iff]
    simp only [List.all_eq_true]
    constructor
    · intro h a ha
      exact h a (hp.mem_iff.mpr ha)
    · intro h a ha
      exact h a (hp.mem_iff.mp ha)

/-- C16 on the scenario: the run of two workers returns false, and the
sequential loop is broken. -/
theorem sequentialLoop_agrees_with_concurrentRun_witness :
    (!(sequentialLoop scenarioJob (scenarioJobs.map Prod.snd) [] false).2) = false ∧
    concurrentRun 2 (scenarioJobs.map Prod.snd) scenarioJob scenarioSchedule =
      some scenarioFinal :=
  ⟨(sequentialLoop_agrees_with_concurrentRun 2 scenarioJobs scenarioJob
      (scenarioJobs.map Prod.snd) (scenarioJobs.map Prod.snd) (by decide) (List.Perm.refl _)
      (List.Perm.refl _)).2 scenarioSchedule scenarioFinal false (by decide) rfl,
    by decide⟩

/-- C17, the code on the build types dataset generation records: `MVN` and
`NPM` are accepted by `getMetadataPaths`, `integrationtest.Run` hands
`info.BuildType` to `DoRun` as it is, and for both `decideMeta` returns the
nil pointer that `DoRun` dereferences, so no job mapping is built; the
package type `getPackageType` derives from the same `info` would have given
metadata. `decideMeta` returns nil exactly for the strings other than `maven`
and `npm`. -/
theorem RunBuildMeta_dataset_types :
    (getMetadataPaths [] BUILD_MVN).isSome = true ∧
    (getMetadataPaths [] BUILD_NPM).isSome = true ∧
    (∀ info : Info, info.BuildType = BUILD_MVN ∨ info.BuildType = BUILD_NPM →
      RunBuildMeta info = none ∧ (decideMeta (getPackageType info)).isSome = true ∧
      ∀ (storeKeyToPath : Str → Str) (originalIndy targetIndy : Str)
        (foloTrackContent : TrackedContent) (newBuildName : Str),
        DoRunMappings storeKeyToPath originalIndy targetIndy (RunBuildTypeArgument info)
          foloTrackContent newBuildName = none) ∧
    (∀ buildType : Str,
      decideMeta buildType = none ↔ buildType ≠ "maven".toList ∧ buildType ≠ "npm".toList) := by
  refine ⟨by decide, by decide, ?_, decideMeta_none_iff⟩
  intro info hinfo
  have hnone : RunBuildMeta info = none := by
    rw [RunBuildMeta, RunBuildTypeArgument, decideMeta_none_iff]
    rcases hinfo with h | h <;> (rw [h]; decide)
  refine ⟨hnone, ?_, ?_⟩
  · rcases hinfo with h | h <;> (simp only [getPackageType, h]; decide)
  · intro storeKeyToPath originalIndy targetIndy foloTrackContent newBuildName
    simp only [RunBuildMeta] at hnone
    simp only [DoRunMappings, hnone]

/-- C18, the claim fails: on the alignment log `REST Client returned {abc}`
the block has the item `abc`, which has no `:`, and `getMavenMetadataPaths`
ends in an index out of range instead of returning a list; so it is not
total. -/
theorem getMavenMetadataPaths_not_total :
    getMavenMetadataPaths "REST Client returned \x7babc\x7d".toList = none ∧
    ¬ ∀ alignLog : Str, (getMavenMetadataPaths alignLog).isSome = true := by
  have h : getMavenMetadataPaths "REST Client returned \x7babc\x7d".toList = none := by decide
  refine ⟨h, fun hall => ?_⟩
  have := hall "REST Client returned \x7babc\x7d".toList
  rw [h] at this
  exact absurd this (by simp)

/-- C18 as amended: for every alignment-log text the slice bounds
`match[i+1 : len(match)-1]` are valid on every matched block;
`getMavenMetadataPaths` returns a list exactly when every comma-separated
item of every non-empty matched block contains a `:` (so that `s[1]` exists);
and the list it returns then has one path per item, in order:
the group with dots as slashes, the artifact and `maven-metadata.xml`. -/
theorem getMavenMetadataPaths_defined (alignLog : Str) :
    (∀ m ∈ mavenBlocks alignLog, ∃ gavs, mavenBlockGavs m = some gavs) ∧
    ((getMavenMetadataPaths alignLog).isSome = true ↔
      ∀ gav ∈ mavenItems alignLog, ':' ∈ gav) ∧
    (∀ paths, getMavenMetadataPaths alignLog = some paths →
      paths = (mavenItems alignLog).map mavenPathOfParts) := by
  have hb := mavenBlocks_gavs alignLog
  have heq := mavenBlocksLoop_eq (mavenBlocks alignLog) hb []
  refine ⟨hb, ?_, ?_⟩
  · unfold getMavenMetadataPaths mavenItems
    rw [heq]
    by_cases h : ∀ gav ∈ ((mavenBlocks alignLog).map mavenBlockItems).flatten, ':' ∈ gav
    · rw [if_pos h]
      simp only [Option.isSome_some, true_iff]
      exact h
    · rw [if_neg h]
      simp only [Option.isSome_none, Bool.false_eq_true, false_iff]
      exact h
  · intro paths hp
    unfold getMavenMetadataPaths at hp
    unfold mavenItems
    rw [heq] at hp
    by_cases h : ∀ gav ∈ ((mavenBlocks alignLog).map mavenBlockItems).flatten, ':' ∈ gav
    · rw [if_pos h] at hp
      simp only [List.nil_append, Option.some.injEq] at hp
      exact hp.symm
    · rw [if_neg h] at hp
      exact absurd hp (by simp)

/-- C18 as amended, on a log with two blocks, the second empty: two items,
two paths. -/
theorem getMavenMetadataPaths_defined_witness :
    getMavenMetadataPaths scenarioAlignLog =
      some ["org/foo/bar/maven-metadata.xml".toList, "org/a/b/c/maven-metadata.xml".toList] ∧
    (mavenItems scenarioAlignLog).map mavenPathOfParts =
      ["org/foo/bar/maven-metadata.xml".toList, "org/a/b/c/maven-metadata.xml".toList] := by
  have h : getMavenMetadataPaths scenarioAlignLog =
      some ["org/foo/bar/maven-metadata.xml".toList, "org/a/b/c/maven-metadata.xml".toList] := by
    decide
  exact ⟨h, ((getMavenMetadataPaths_defined scenarioAlignLog).2.2 _ h).symm⟩

end IndyTests
